import Mathlib

/-!
# Chess rules engine of `src/chess.js`

A shallow embedding of the rules core of the `ChessGame` component: the board,
the six pseudo-legal move generators, the attack oracle `isSquareUnderAttack`,
the legality filter inside `getValidMovesForPiece`, the detector
`checkForCheckAndCheckmate` and the click handler `handleSquareClick`.

Modelling conventions.

* Coordinates are `Int`, as the generators compute `row + direction` with
  negative offsets and compare the result with `0` and `8`.
* A board is an 8x8 grid of optional pieces.  `Board.get` is the read
  `testBoard[r][c]`; every read in the source is either bounds-guarded or
  made at a square the caller took from the grid, so the result `none`
  outside the grid is never observed by the code paths modelled here.
* `piece.moved` is `undefined` on the knights, bishops and queens of the
  initial position, hence `Option Bool`.
* A `TypeError` (dereferencing a `null` king position or a `null` piece)
  aborts the handler: fallible functions return `Option`, `none` is the fault.
* React state is passed explicitly: `handleSquareClick` reads the state of
  the render it was created in and returns the state after all queued
  setters have run.  The countdown `timer` is outside the rules core;
  `activeTimer` is kept because the handler writes it.
-/

namespace Chess

/-! ## Data model -/

inductive Color where
  | white
  | black
  deriving DecidableEq, Repr

inductive Kind where
  | pawn
  | rook
  | knight
  | bishop
  | queen
  | king
  deriving DecidableEq, Repr

/-- A piece object `{ type, color, moved }`; `moved` may be absent. -/
structure Piece where
  type : Kind
  color : Color
  moved : Option Bool
  deriving DecidableEq, Repr

/-- A move destination `{ row, col }`. -/
structure Square where
  row : Int
  col : Int
  deriving DecidableEq, Repr

/-- The 8x8 grid `board[r][c]`. -/
abbrev Board := Fin 8 → Fin 8 → Option Piece

/-- The bounds test `r >= 0 && r < 8 && c >= 0 && c < 8`. -/
def onBoard (r c : Int) : Prop := r ≥ 0 ∧ r < 8 ∧ c ≥ 0 ∧ c < 8

instance (r c : Int) : Decidable (onBoard r c) := by
  unfold onBoard; exact inferInstance

/-- The read `testBoard[r][c]`. -/
def Board.get (b : Board) (r c : Int) : Option Piece :=
  if h : r ≥ 0 ∧ r < 8 ∧ c ≥ 0 ∧ c < 8 then
    b ⟨r.toNat, by omega⟩ ⟨c.toNat, by omega⟩
  else none

/-- The write `testBoard[r][c] = v` on a copy of the grid. -/
def Board.set (b : Board) (r c : Int) (v : Option Piece) : Board :=
  fun i j => if (i.val : Int) = r ∧ (j.val : Int) = c then v else b i j

/-- The expression `color === 'white' ? 'black' : 'white'`. -/
def opposite (color : Color) : Color :=
  if color = Color.white then Color.black else Color.white

/-- The squares of the grid in the order of the nested loops
`for r in 0..7 { for c in 0..7 { ... } }`. -/
def allSquares : List Square :=
  (List.range 8).flatMap fun (r : Nat) =>
    (List.range 8).map fun (c : Nat) => Square.mk (r : Int) (c : Int)

/-- One back rank of `initializeBoard`, left to right. -/
def backRank (color : Color) : List Piece :=
  [ ⟨Kind.rook, color, some false⟩,
    ⟨Kind.knight, color, none⟩,
    ⟨Kind.bishop, color, none⟩,
    ⟨Kind.queen, color, none⟩,
    ⟨Kind.king, color, some false⟩,
    ⟨Kind.bishop, color, none⟩,
    ⟨Kind.knight, color, none⟩,
    ⟨Kind.rook, color, some false⟩ ]

def initializeBoard : Board := fun i j =>
  match i.val with
  | 0 => (backRank Color.black)[j.val]?
  | 1 => some ⟨Kind.pawn, Color.black, some false⟩
  | 6 => some ⟨Kind.pawn, Color.white, some false⟩
  | 7 => (backRank Color.white)[j.val]?
  | _ => none

/-! ## Pseudo-legal move generators -/

def getPawnMoves (row col : Int) (piece : Piece) (testBoard : Board) : List Square :=
  let direction : Int := if piece.color = Color.white then -1 else 1
  let startRow : Int := if piece.color = Color.white then 6 else 1
  let forward : List Square :=
    if row + direction ≥ 0 ∧ row + direction < 8 ∧
        (testBoard.get (row + direction) col).isNone then
      ⟨row + direction, col⟩ ::
        (if row = startRow ∧ (testBoard.get (row + 2 * direction) col).isNone then
          [⟨row + 2 * direction, col⟩]
        else [])
    else []
  let captures : List Square :=
    ([-1, 1] : List Int).flatMap fun offset =>
      let newCol := col + offset
      if newCol ≥ 0 ∧ newCol < 8 ∧ row + direction ≥ 0 ∧ row + direction < 8 then
        match testBoard.get (row + direction) newCol with
        | some target =>
          if target.color ≠ piece.color then [⟨row + direction, newCol⟩] else []
        | none => []
      else []
  forward ++ captures

/-- The loop `while (r >= 0 && r < 8 && c >= 0 && c < 8) { ... r += dr; c += dc }`
shared by the rook and bishop generators, run for at most `fuel` iterations. -/
def slide (testBoard : Board) (piece : Piece) (dr dc : Int) : Nat → Int → Int → List Square
  | 0, _, _ => []
  | fuel + 1, r, c =>
    if r ≥ 0 ∧ r < 8 ∧ c ≥ 0 ∧ c < 8 then
      match testBoard.get r c with
      | some target =>
        if target.color ≠ piece.color then [⟨r, c⟩] else []
      | none => ⟨r, c⟩ :: slide testBoard piece dr dc fuel (r + dr) (c + dc)
    else []

def getRookMoves (row col : Int) (piece : Piece) (testBoard : Board) : List Square :=
  ([(0, 1), (0, -1), (1, 0), (-1, 0)] : List (Int × Int)).flatMap fun d =>
    slide testBoard piece d.1 d.2 8 (row + d.1) (col + d.2)

/-- The body shared by `getKnightMoves` and `getKingMoves`: one fixed offset. -/
def stepTo (row col : Int) (piece : Piece) (testBoard : Board) (d : Int × Int) : List Square :=
  let r := row + d.1
  let c := col + d.2
  if r ≥ 0 ∧ r < 8 ∧ c ≥ 0 ∧ c < 8 then
    match testBoard.get r c with
    | none => [⟨r, c⟩]
    | some target => if target.color ≠ piece.color then [⟨r, c⟩] else []
  else []

def getKnightMoves (row col : Int) (piece : Piece) (testBoard : Board) : List Square :=
  ([(-2, -1), (-2, 1), (-1, -2), (-1, 2), (1, -2), (1, 2), (2, -1), (2, 1)] :
    List (Int × Int)).flatMap (stepTo row col piece testBoard)

def getBishopMoves (row col : Int) (piece : Piece) (testBoard : Board) : List Square :=
  ([(1, 1), (1, -1), (-1, 1), (-1, -1)] : List (Int × Int)).flatMap fun d =>
    slide testBoard piece d.1 d.2 8 (row + d.1) (col + d.2)

def getQueenMoves (row col : Int) (piece : Piece) (testBoard : Board) : List Square :=
  getRookMoves row col piece testBoard ++ getBishopMoves row col piece testBoard

def getKingMoves (row col : Int) (piece : Piece) (testBoard : Board) : List Square :=
  ([(-1, -1), (-1, 0), (-1, 1), (0, -1), (0, 1), (1, -1), (1, 0), (1, 1)] :
    List (Int × Int)).flatMap (stepTo row col piece testBoard)

/-- The `switch (piece.type)` of `getValidMovesForPiece`. -/
def pieceMoves (row col : Int) (piece : Piece) (testBoard : Board) : List Square :=
  match piece.type with
  | Kind.pawn => getPawnMoves row col piece testBoard
  | Kind.rook => getRookMoves row col piece testBoard
  | Kind.knight => getKnightMoves row col piece testBoard
  | Kind.bishop => getBishopMoves row col piece testBoard
  | Kind.queen => getQueenMoves row col piece testBoard
  | Kind.king => getKingMoves row col piece testBoard

/-- The call `getValidMovesForPiece(row, col, testBoard, false)`: the part of
the function before the `if (checkForCheck)` block. -/
def pseudoLegalMoves (row col : Int) (testBoard : Board) : List Square :=
  match testBoard.get row col with
  | none => []
  | some piece => pieceMoves row col piece testBoard

/-! ## Attack oracle -/

def isSquareUnderAttack (row col : Int) (byColor : Color) (testBoard : Board) : Bool :=
  allSquares.any fun sq =>
    match testBoard.get sq.row sq.col with
    | some piece =>
      piece.color = byColor &&
        (pseudoLegalMoves sq.row sq.col testBoard).any
          (fun move => move.row = row && move.col = col)
    | none => false

/-! ## Legality filter -/

/-- The king search `for r { for c { if (...) { kingPos = ...; break } } if (kingPos) break }`:
the first square in row-major order holding a king of `color`. -/
def findKing (testBoard : Board) (color : Color) : Option Square :=
  allSquares.find? fun sq =>
    match testBoard.get sq.row sq.col with
    | some piece => piece.type = Kind.king && piece.color = color
    | none => false

/-- The board `testBoardCopy` built by the filter for one candidate move. -/
def simulateMove (testBoard : Board) (row col : Int) (move : Square) : Board :=
  (testBoard.set move.row move.col (testBoard.get row col)).set row col none

/-- The callback of `moves.filter(...)`; `none` when `kingPos` is `null`. -/
def keepsKingSafe (testBoard : Board) (row col : Int) (piece : Piece) (move : Square) :
    Option Bool :=
  let testBoardCopy := simulateMove testBoard row col move
  match findKing testBoardCopy piece.color with
  | none => none
  | some kingPos =>
    some (!isSquareUnderAttack kingPos.row kingPos.col (opposite piece.color) testBoardCopy)

/-- The filter `moves.filter(...)` with a callback that may fault. -/
def filterLegal (testBoard : Board) (row col : Int) (piece : Piece) :
    List Square → Option (List Square)
  | [] => some []
  | move :: rest =>
    match keepsKingSafe testBoard row col piece move with
    | none => none
    | some keep =>
      match filterLegal testBoard row col piece rest with
      | none => none
      | some kept => some (if keep then move :: kept else kept)

def getValidMovesForPiece (row col : Int) (testBoard : Board) (checkForCheck : Bool) :
    Option (List Square) :=
  match testBoard.get row col with
  | none => some []
  | some piece =>
    let moves := pieceMoves row col piece testBoard
    if checkForCheck then filterLegal testBoard row col piece moves
    else some moves

/-! ## Game state machine -/

/-- The object `{ white: [...], black: [...] }` of captured pieces. -/
structure CapturedPieces where
  white : List Piece
  black : List Piece
  deriving DecidableEq

/-- The read `prev[color]`. -/
def CapturedPieces.get (cp : CapturedPieces) (color : Color) : List Piece :=
  match color with
  | Color.white => cp.white
  | Color.black => cp.black

/-- The update `{ ...prev, [color]: [...prev[color], capturedPiece] }`. -/
def CapturedPieces.append (cp : CapturedPieces) (color : Color) (capturedPiece : Piece) :
    CapturedPieces :=
  match color with
  | Color.white => { cp with white := cp.white ++ [capturedPiece] }
  | Color.black => { cp with black := cp.black ++ [capturedPiece] }

/-- One entry of `moveHistory`: `{ from, to, piece, captured }` (`from` and `to`
are reserved words here, hence `fromSq` and `toSq`). -/
structure MoveRecord where
  fromSq : Square
  toSq : Square
  piece : Kind
  captured : Option Kind
  deriving DecidableEq

/-- The `useState` cells of the component that the rules core reads or writes. -/
structure GameState where
  board : Board
  selectedSquare : Option Square
  currentPlayer : Color
  validMoves : List Square
  capturedPieces : CapturedPieces
  isCheck : Bool
  isCheckmate : Bool
  moveHistory : List MoveRecord
  activeTimer : Color

/-- The state of the first render, which is also the state `resetGame` installs. -/
def initialState : GameState where
  board := initializeBoard
  selectedSquare := none
  currentPlayer := Color.white
  validMoves := []
  capturedPieces := ⟨[], []⟩
  isCheck := false
  isCheckmate := false
  moveHistory := []
  activeTimer := Color.white

def resetGame (_s : GameState) : GameState := initialState

/-- The loop of `checkForCheckAndCheckmate` that looks for a piece of `player`
with a legal move, over the squares still to visit; `none` when a call of
`getValidMovesForPiece` faults. -/
def hasValidMove (testBoard : Board) (player : Color) : List Square → Option Bool
  | [] => some false
  | sq :: rest =>
    match testBoard.get sq.row sq.col with
    | some piece =>
      if piece.color = player then
        match getValidMovesForPiece sq.row sq.col testBoard true with
        | none => none
        | some moves =>
          if moves.length > 0 then some true else hasValidMove testBoard player rest
      else hasValidMove testBoard player rest
    | none => hasValidMove testBoard player rest

/-- The detector.  The result is `(inCheck, mate)`: `inCheck` is the value
passed to `setIsCheck`, and `mate` tells whether `setIsCheckmate(true)` is
called.  `none` when `kingPos` is `null`, or when the scan faults. -/
def checkForCheckAndCheckmate (testBoard : Board) (player : Color) : Option (Bool × Bool) :=
  match findKing testBoard player with
  | none => none
  | some kingPos =>
    let inCheck := isSquareUnderAttack kingPos.row kingPos.col (opposite player) testBoard
    if inCheck then
      match hasValidMove testBoard player allSquares with
      | none => none
      | some found => some (inCheck, !found)
    else some (inCheck, false)

/-- The board `newBoard` that `handleSquareClick` builds when it applies the
move of `piece` from `sel` to `(row, col)`. -/
def movedBoard (board : Board) (sel : Square) (row col : Int) (piece : Piece) : Board :=
  let newBoard := board.set row col (some { piece with moved := some true })
  let newBoard := newBoard.set sel.row sel.col none
  if piece.type = Kind.pawn ∧ (row = 0 ∨ row = 7) then
    newBoard.set row col (some ⟨Kind.queen, piece.color, some true⟩)
  else newBoard

def handleSquareClick (s : GameState) (row col : Int) : Option GameState :=
  if s.isCheckmate then some s
  else
    match s.selectedSquare with
    | some sel =>
      let isValidMove := s.validMoves.any fun move => move.row = row && move.col = col
      if isValidMove then
        match s.board.get sel.row sel.col with
        | none => none
        | some piece =>
          let capturedPiece := s.board.get row col
          let captured :=
            match capturedPiece with
            | some cp => s.capturedPieces.append s.currentPlayer cp
            | none => s.capturedPieces
          let newBoard := movedBoard s.board sel row col piece
          let history := s.moveHistory ++
            [⟨sel, ⟨row, col⟩, piece.type, capturedPiece.map (·.type)⟩]
          let nextPlayer := opposite s.currentPlayer
          match checkForCheckAndCheckmate newBoard nextPlayer with
          | none => none
          | some (inCheck, mate) =>
            some { board := newBoard
                   selectedSquare := none
                   currentPlayer := nextPlayer
                   validMoves := []
                   capturedPieces := captured
                   isCheck := inCheck
                   isCheckmate := if mate then true else s.isCheckmate
                   moveHistory := history
                   activeTimer := nextPlayer }
      else some { s with selectedSquare := none, validMoves := [] }
    | none =>
      match s.board.get row col with
      | some piece =>
        if piece.color = s.currentPlayer then
          match getValidMovesForPiece row col s.board true with
          | none => none
          | some moves =>
            some { s with selectedSquare := some ⟨row, col⟩, validMoves := moves }
        else some s
      | none => some s

/-- What the input layer can send: a click on one of the 64 rendered squares,
or the reset button. -/
inductive Event where
  | click (row col : Fin 8)
  | reset

def step (s : GameState) : Event → Option GameState
  | Event.click row col => handleSquareClick s (row.val : Int) (col.val : Int)
  | Event.reset => some (resetGame s)

/-- Process a list of events in order, stopping at the first fault. -/
def run (s : GameState) : List Event → Option GameState
  | [] => some s
  | e :: es =>
    match step s e with
    | none => none
    | some s1 => run s1 es

/-- A state that some sequence of clicks and resets leads to from the initial state. -/
def Reachable (s : GameState) : Prop := ∃ es, run initialState es = some s

/-! ## Counting legal moves -/

/-- The number of destinations `getValidMovesForPiece(r, c, board, true)` returns,
summed over the squares of the list that hold a piece of `color`. -/
def countLegalMoves (testBoard : Board) (color : Color) : List Square → Option Nat
  | [] => some 0
  | sq :: rest =>
    match testBoard.get sq.row sq.col with
    | some piece =>
      if piece.color = color then
        match getValidMovesForPiece sq.row sq.col testBoard true,
            countLegalMoves testBoard color rest with
        | some moves, some n => some (moves.length + n)
        | _, _ => none
      else countLegalMoves testBoard color rest
    | none => countLegalMoves testBoard color rest

/-! ## Concrete positions used to exercise the theorems -/

/-- The initial position with the white pawn on (6,4) selected. -/
def selectedE2 : GameState :=
  { initialState with selectedSquare := some ⟨6, 4⟩, validMoves := [⟨5, 4⟩, ⟨4, 4⟩] }

/-- The state after that pawn has moved to (4,4). -/
def afterE4 : GameState where
  board := movedBoard initializeBoard ⟨6, 4⟩ 4 4 ⟨Kind.pawn, Color.white, some false⟩
  selectedSquare := none
  currentPlayer := Color.black
  validMoves := []
  capturedPieces := ⟨[], []⟩
  isCheck := false
  isCheckmate := false
  moveHistory := [⟨⟨6, 4⟩, ⟨4, 4⟩, Kind.pawn, none⟩]
  activeTimer := Color.black

/-- The board after white's pawn went (6,4)→(4,4) and black's pawn (1,3)→(3,3). -/
def centreBoard : Board :=
  movedBoard
    (movedBoard initializeBoard ⟨6, 4⟩ 4 4 ⟨Kind.pawn, Color.white, some false⟩)
    ⟨1, 3⟩ 3 3 ⟨Kind.pawn, Color.black, some false⟩

/-- White to move on `centreBoard`, the pawn on (4,4) selected. -/
def captureReady : GameState where
  board := centreBoard
  selectedSquare := some ⟨4, 4⟩
  currentPlayer := Color.white
  validMoves := [⟨3, 4⟩, ⟨3, 3⟩]
  capturedPieces := ⟨[], []⟩
  isCheck := false
  isCheckmate := false
  moveHistory := [⟨⟨6, 4⟩, ⟨4, 4⟩, Kind.pawn, none⟩, ⟨⟨1, 3⟩, ⟨3, 3⟩, Kind.pawn, none⟩]
  activeTimer := Color.white

/-- The state after the pawn on (4,4) has captured on (3,3). -/
def afterCapture : GameState where
  board := movedBoard centreBoard ⟨4, 4⟩ 3 3 ⟨Kind.pawn, Color.white, some true⟩
  selectedSquare := none
  currentPlayer := Color.black
  validMoves := []
  capturedPieces := ⟨[⟨Kind.pawn, Color.black, some true⟩], []⟩
  isCheck := false
  isCheckmate := false
  moveHistory :=
    [⟨⟨6, 4⟩, ⟨4, 4⟩, Kind.pawn, none⟩, ⟨⟨1, 3⟩, ⟨3, 3⟩, Kind.pawn, none⟩,
     ⟨⟨4, 4⟩, ⟨3, 3⟩, Kind.pawn, some Kind.pawn⟩]
  activeTimer := Color.black

/-- Two kings and a white pawn one step from the far rank. -/
def promotionBoard : Board :=
  Board.set
    (Board.set
      (Board.set (fun _ _ => none) 7 4 (some ⟨Kind.king, Color.white, some true⟩))
      0 0 (some ⟨Kind.king, Color.black, some true⟩))
    1 7 (some ⟨Kind.pawn, Color.white, some true⟩)

/-- White to move on `promotionBoard`, the pawn on (1,7) selected. -/
def promotionReady : GameState where
  board := promotionBoard
  selectedSquare := some ⟨1, 7⟩
  currentPlayer := Color.white
  validMoves := [⟨0, 7⟩]
  capturedPieces := ⟨[], []⟩
  isCheck := false
  isCheckmate := false
  moveHistory := []
  activeTimer := Color.white

/-- The state after the pawn has moved to (0,7) and become a queen. -/
def afterPromotion : GameState where
  board := movedBoard promotionBoard ⟨1, 7⟩ 0 7 ⟨Kind.pawn, Color.white, some true⟩
  selectedSquare := none
  currentPlayer := Color.black
  validMoves := []
  capturedPieces := ⟨[], []⟩
  isCheck := true
  isCheckmate := false
  moveHistory := [⟨⟨1, 7⟩, ⟨0, 7⟩, Kind.pawn, none⟩]
  activeTimer := Color.black

/-- The clicks of the shortest game: white pawns (6,5)→(5,5) and (6,6)→(4,6),
black pawn (1,4)→(3,4) and black queen (0,3)→(4,7). -/
def foolsMateClicks : List Event :=
  [Event.click 6 5, Event.click 5 5, Event.click 1 4, Event.click 3 4,
   Event.click 6 6, Event.click 4 6, Event.click 0 3, Event.click 4 7]

def foolsMateBoard : Board :=
  movedBoard
    (movedBoard
      (movedBoard
        (movedBoard initializeBoard ⟨6, 5⟩ 5 5 ⟨Kind.pawn, Color.white, some false⟩)
        ⟨1, 4⟩ 3 4 ⟨Kind.pawn, Color.black, some false⟩)
      ⟨6, 6⟩ 4 6 ⟨Kind.pawn, Color.white, some false⟩)
    ⟨0, 3⟩ 4 7 ⟨Kind.queen, Color.black, none⟩

/-- The state those clicks lead to: white is checkmated. -/
def foolsMate : GameState where
  board := foolsMateBoard
  selectedSquare := none
  currentPlayer := Color.white
  validMoves := []
  capturedPieces := ⟨[], []⟩
  isCheck := true
  isCheckmate := true
  moveHistory :=
    [⟨⟨6, 5⟩, ⟨5, 5⟩, Kind.pawn, none⟩, ⟨⟨1, 4⟩, ⟨3, 4⟩, Kind.pawn, none⟩,
     ⟨⟨6, 6⟩, ⟨4, 6⟩, Kind.pawn, none⟩, ⟨⟨0, 3⟩, ⟨4, 7⟩, Kind.queen, none⟩]
  activeTimer := Color.white

/-- White to mate on the back rank: black king on (0,4) behind its pawns, a
white rook on (7,0). -/
def backRankBoard : Board :=
  Board.set
    (Board.set
      (Board.set
        (Board.set
          (Board.set
            (Board.set (fun _ _ => none) 7 4 (some ⟨Kind.king, Color.white, some true⟩))
            7 0 (some ⟨Kind.rook, Color.white, some false⟩))
          0 4 (some ⟨Kind.king, Color.black, some false⟩))
        1 3 (some ⟨Kind.pawn, Color.black, some false⟩))
      1 4 (some ⟨Kind.pawn, Color.black, some false⟩))
    1 5 (some ⟨Kind.pawn, Color.black, some false⟩)

/-- White to move on `backRankBoard`, the rook on (7,0) selected. -/
def backRankReady : GameState where
  board := backRankBoard
  selectedSquare := some ⟨7, 0⟩
  currentPlayer := Color.white
  validMoves :=
    [⟨7, 1⟩, ⟨7, 2⟩, ⟨7, 3⟩, ⟨6, 0⟩, ⟨5, 0⟩, ⟨4, 0⟩, ⟨3, 0⟩, ⟨2, 0⟩, ⟨1, 0⟩, ⟨0, 0⟩]
  capturedPieces := ⟨[], []⟩
  isCheck := false
  isCheckmate := false
  moveHistory := []
  activeTimer := Color.white

/-- The state after the rook has moved to (0,0): black is checkmated. -/
def afterBackRank : GameState where
  board := movedBoard backRankBoard ⟨7, 0⟩ 0 0 ⟨Kind.rook, Color.white, some false⟩
  selectedSquare := none
  currentPlayer := Color.black
  validMoves := []
  capturedPieces := ⟨[], []⟩
  isCheck := true
  isCheckmate := true
  moveHistory := [⟨⟨7, 0⟩, ⟨0, 0⟩, Kind.rook, none⟩]
  activeTimer := Color.black

/-- White to stalemate: black king on (0,0), a white queen on (3,1). -/
def stalemateBoard : Board :=
  Board.set
    (Board.set
      (Board.set (fun _ _ => none) 7 4 (some ⟨Kind.king, Color.white, some true⟩))
      3 1 (some ⟨Kind.queen, Color.white, some true⟩))
    0 0 (some ⟨Kind.king, Color.black, some true⟩)

/-- White to move on `stalemateBoard`, the queen on (3,1) selected. -/
def stalemateReady : GameState where
  board := stalemateBoard
  selectedSquare := some ⟨3, 1⟩
  currentPlayer := Color.white
  validMoves :=
    [⟨3, 2⟩, ⟨3, 3⟩, ⟨3, 4⟩, ⟨3, 5⟩, ⟨3, 6⟩, ⟨3, 7⟩, ⟨3, 0⟩, ⟨4, 1⟩, ⟨5, 1⟩, ⟨6, 1⟩,
     ⟨7, 1⟩, ⟨2, 1⟩, ⟨1, 1⟩, ⟨0, 1⟩, ⟨4, 2⟩, ⟨5, 3⟩, ⟨6, 4⟩, ⟨7, 5⟩, ⟨4, 0⟩, ⟨2, 2⟩,
     ⟨1, 3⟩, ⟨0, 4⟩, ⟨2, 0⟩]
  capturedPieces := ⟨[], []⟩
  isCheck := false
  isCheckmate := false
  moveHistory := []
  activeTimer := Color.white

/-- The state after the queen has moved to (2,1): black is not in check and
has no legal move. -/
def afterStalemate : GameState where
  board := movedBoard stalemateBoard ⟨3, 1⟩ 2 1 ⟨Kind.queen, Color.white, some true⟩
  selectedSquare := none
  currentPlayer := Color.black
  validMoves := []
  capturedPieces := ⟨[], []⟩
  isCheck := false
  isCheckmate := false
  moveHistory := [⟨⟨3, 1⟩, ⟨2, 1⟩, Kind.queen, none⟩]
  activeTimer := Color.black

/-- A board without kings: a single white pawn on (6,0). -/
def lonePawnBoard : Board :=
  Board.set (fun _ _ => none) 6 0 (some ⟨Kind.pawn, Color.white, some false⟩)

/-! ## Spec-side vocabulary for the sliding pieces -/

/-- Every square strictly between `(row, col)` and `(r, c)` is empty, for two
squares on a common row, column or diagonal: the squares `i` steps from
`(row, col)` towards `(r, c)`, for `0 < i <` the distance of the two squares. -/
def pathClear (b : Board) (row col r c : Int) : Prop :=
  ∀ i : Int, 0 < i → i < max (r - row).natAbs (c - col).natAbs →
    b.get (row + i * (r - row).sign) (col + i * (c - col).sign) = none

/-! ## Counting kings -/

/-- The number of squares of the grid that hold a king of `color`, with the test
`testBoard[r][c]?.type === 'king' && testBoard[r][c]?.color === color` of the
king searches. -/
def kingCount (testBoard : Board) (color : Color) : Nat :=
  allSquares.countP fun sq =>
    match testBoard.get sq.row sq.col with
    | some piece => piece.type = Kind.king && piece.color = color
    | none => false

/-! ## Board reads and writes -/

theorem get_set_same (b : Board) (r c : Int) (v : Option Piece) (h : onBoard r c) :
    (b.set r c v).get r c = v := by
  obtain ⟨h1, h2, h3, h4⟩ := h
  have hr : ((r.toNat : Nat) : Int) = r := Int.toNat_of_nonneg h1
  have hc : ((c.toNat : Nat) : Int) = c := Int.toNat_of_nonneg h3
  simp [Board.get, Board.set, h1, h2, h3, h4, hr, hc]

theorem get_set_other (b : Board) (r c r1 c1 : Int) (v : Option Piece)
    (h : r1 ≠ r ∨ c1 ≠ c) : (b.set r c v).get r1 c1 = b.get r1 c1 := by
  unfold Board.get Board.set
  by_cases hb : r1 ≥ 0 ∧ r1 < 8 ∧ c1 ≥ 0 ∧ c1 < 8
  · have hr : ((r1.toNat : Nat) : Int) = r1 := Int.toNat_of_nonneg hb.1
    have hc : ((c1.toNat : Nat) : Int) = c1 := Int.toNat_of_nonneg hb.2.2.1
    simp only [hb, and_self, dite_true, hr, hc]
    rw [if_neg]
    rintro ⟨e1, e2⟩
    rcases h with h | h
    · exact h e1
    · exact h e2
  · simp only [hb, dite_false]

theorem get_none_of_not_onBoard (b : Board) (r c : Int) (h : ¬ onBoard r c) :
    b.get r c = none := by
  unfold Board.get
  unfold onBoard at h
  rw [dif_neg h]

theorem onBoard_of_get_some {b : Board} {r c : Int} {p : Piece} (h : b.get r c = some p) :
    onBoard r c := by
  by_contra hn
  rw [get_none_of_not_onBoard b r c hn] at h
  exact Option.noConfusion h

theorem mem_allSquares (sq : Square) : sq ∈ allSquares ↔ onBoard sq.row sq.col := by
  unfold allSquares onBoard
  simp only [List.mem_flatMap, List.mem_map, List.mem_range]
  constructor
  · rintro ⟨r, hr, c, hc, rfl⟩
    simp only
    omega
  · rintro ⟨h1, h2, h3, h4⟩
    refine ⟨sq.row.toNat, by omega, sq.col.toNat, by omega, ?_⟩
    cases sq with
    | mk row col =>
      simp only at h1 h2 h3 h4 ⊢
      rw [Int.toNat_of_nonneg h1, Int.toNat_of_nonneg h3]

theorem opposite_ne (c : Color) : opposite c ≠ c := by
  cases c <;> decide

theorem opposite_opposite (c : Color) : opposite (opposite c) = c := by
  cases c <;> rfl

theorem ne_opposite_iff (a c : Color) : a ≠ c ↔ a = opposite c := by
  cases a <;> cases c <;> decide

/-! ## Soundness of the generators -/

theorem slide_sound (b : Board) (p : Piece) (dr dc : Int) :
    ∀ (fuel : Nat) (r c : Int) (m : Square), m ∈ slide b p dr dc fuel r c →
      ∃ k : Nat, k < fuel ∧ m.row = r + k * dr ∧ m.col = c + k * dc ∧
        onBoard m.row m.col ∧ ∀ t, b.get m.row m.col = some t → t.color ≠ p.color := by
  intro fuel
  induction fuel with
  | zero => intro r c m hm; simp [slide] at hm
  | succ n ih =>
    intro r c m hm
    unfold slide at hm
    split at hm
    · rename_i hb
      split at hm
      · rename_i target ht
        split at hm
        · rename_i hcol
          simp only [List.mem_singleton] at hm
          subst hm
          refine ⟨0, by omega, by simp, by simp, hb, ?_⟩
          intro t h
          simp only at h
          rw [ht] at h
          cases h
          exact hcol
        · simp at hm
      · rename_i ht
        simp only [List.mem_cons] at hm
        rcases hm with hm | hm
        · subst hm
          refine ⟨0, by omega, by simp, by simp, hb, ?_⟩
          intro t h
          simp only at h
          rw [ht] at h
          cases h
        · obtain ⟨k, hk, h1, h2, h3, h4⟩ := ih _ _ m hm
          refine ⟨k + 1, by omega, ?_, ?_, h3, h4⟩
          · rw [h1]; push_cast; ring
          · rw [h2]; push_cast; ring
    · simp at hm

theorem stepTo_sound (b : Board) (p : Piece) (row col : Int) (d : Int × Int) (m : Square)
    (hm : m ∈ stepTo row col p b d) :
    m.row = row + d.1 ∧ m.col = col + d.2 ∧ onBoard m.row m.col ∧
      ∀ t, b.get m.row m.col = some t → t.color ≠ p.color := by
  unfold stepTo at hm
  simp only at hm
  split at hm
  · rename_i hb
    split at hm
    · rename_i ht
      simp only [List.mem_singleton] at hm
      subst hm
      refine ⟨rfl, rfl, hb, ?_⟩
      intro t h
      simp only at h
      rw [ht] at h
      cases h
    · rename_i target ht
      split at hm
      · rename_i hcol
        simp only [List.mem_singleton] at hm
        subst hm
        refine ⟨rfl, rfl, hb, ?_⟩
        intro t h
        simp only at h
        rw [ht] at h
        cases h
        exact hcol
      · simp at hm
  · simp at hm

theorem getRookMoves_sound (b : Board) (p : Piece) (row col : Int) (m : Square)
    (hm : m ∈ getRookMoves row col p b) :
    onBoard m.row m.col ∧ (m.row ≠ row ∨ m.col ≠ col) ∧
      ∀ t, b.get m.row m.col = some t → t.color ≠ p.color := by
  unfold getRookMoves at hm
  simp only [List.mem_flatMap, List.mem_cons, List.mem_singleton, List.not_mem_nil,
    or_false] at hm
  obtain ⟨d, hd, hm⟩ := hm
  obtain ⟨k, -, h1, h2, h3, h4⟩ := slide_sound b p _ _ _ _ _ m hm
  refine ⟨h3, ?_, h4⟩
  rcases hd with rfl | rfl | rfl | rfl <;> simp only at h1 h2 <;> omega

theorem getBishopMoves_sound (b : Board) (p : Piece) (row col : Int) (m : Square)
    (hm : m ∈ getBishopMoves row col p b) :
    onBoard m.row m.col ∧ (m.row ≠ row ∨ m.col ≠ col) ∧
      ∀ t, b.get m.row m.col = some t → t.color ≠ p.color := by
  unfold getBishopMoves at hm
  simp only [List.mem_flatMap, List.mem_cons, List.mem_singleton, List.not_mem_nil,
    or_false] at hm
  obtain ⟨d, hd, hm⟩ := hm
  obtain ⟨k, -, h1, h2, h3, h4⟩ := slide_sound b p _ _ _ _ _ m hm
  refine ⟨h3, ?_, h4⟩
  rcases hd with rfl | rfl | rfl | rfl <;> simp only at h1 h2 <;> omega

theorem getKnightMoves_sound (b : Board) (p : Piece) (row col : Int) (m : Square)
    (hm : m ∈ getKnightMoves row col p b) :
    onBoard m.row m.col ∧ (m.row ≠ row ∨ m.col ≠ col) ∧
      ∀ t, b.get m.row m.col = some t → t.color ≠ p.color := by
  unfold getKnightMoves at hm
  simp only [List.mem_flatMap, List.mem_cons, List.mem_singleton, List.not_mem_nil,
    or_false] at hm
  obtain ⟨d, hd, hm⟩ := hm
  obtain ⟨h1, h2, h3, h4⟩ := stepTo_sound b p row col d m hm
  refine ⟨h3, ?_, h4⟩
  rcases hd with rfl | rfl | rfl | rfl | rfl | rfl | rfl | rfl <;> simp only at h1 h2 <;> omega

theorem getKingMoves_sound (b : Board) (p : Piece) (row col : Int) (m : Square)
    (hm : m ∈ getKingMoves row col p b) :
    onBoard m.row m.col ∧ (m.row ≠ row ∨ m.col ≠ col) ∧
      ∀ t, b.get m.row m.col = some t → t.color ≠ p.color := by
  unfold getKingMoves at hm
  simp only [List.mem_flatMap, List.mem_cons, List.mem_singleton, List.not_mem_nil,
    or_false] at hm
  obtain ⟨d, hd, hm⟩ := hm
  obtain ⟨h1, h2, h3, h4⟩ := stepTo_sound b p row col d m hm
  refine ⟨h3, ?_, h4⟩
  rcases hd with rfl | rfl | rfl | rfl | rfl | rfl | rfl | rfl <;> simp only at h1 h2 <;> omega

set_option linter.unusedTactic false in
set_option linter.unreachableTactic false in
theorem getPawnMoves_sound (b : Board) (p : Piece) (row col : Int) (m : Square)
    (hrc : onBoard row col) (hm : m ∈ getPawnMoves row col p b) :
    onBoard m.row m.col ∧ (m.row ≠ row ∨ m.col ≠ col) ∧
      (∀ t, b.get m.row m.col = some t → t.color ≠ p.color) ∧
      (p.color = Color.white → m.row < row) ∧ (p.color ≠ Color.white → m.row > row) := by
  obtain ⟨hr0, hr8, hc0, hc8⟩ := hrc
  unfold getPawnMoves at hm
  by_cases hw : p.color = Color.white
  · simp only [hw, if_true, List.mem_append, List.mem_flatMap, List.mem_cons,
      List.mem_singleton, List.not_mem_nil, or_false] at hm
    rcases hm with hm | ⟨offset, hoff, hm⟩
    · split at hm
      · rename_i hf
        obtain ⟨hf0, hf8, hfe⟩ := hf
        simp only [List.mem_cons] at hm
        rcases hm with hm | hm
        · subst hm
          refine ⟨⟨hf0, hf8, hc0, hc8⟩, Or.inl (by simp only; omega), ?_,
            fun h => by first | exact absurd h hw | (simp only; omega),
            fun h => by first | exact absurd hw h | (simp only; omega)⟩
          intro t h
          simp only at h
          rw [h] at hfe
          simp at hfe
        · split at hm
          · rename_i hd
            obtain ⟨hs, hde⟩ := hd
            simp only [List.mem_singleton] at hm
            subst hm
            refine ⟨⟨by simp only; omega, by simp only; omega, hc0, hc8⟩,
              Or.inl (by simp only; omega), ?_,
              fun h => by first | exact absurd h hw | (simp only; omega),
              fun h => by first | exact absurd hw h | (simp only; omega)⟩
            intro t h
            simp only at h
            rw [h] at hde
            simp at hde
          · simp at hm
      · simp at hm
    · split at hm
      · rename_i hb
        obtain ⟨hn0, hn8, hf0, hf8⟩ := hb
        split at hm
        · rename_i target ht
          split at hm
          · rename_i hcol
            simp only [List.mem_singleton] at hm
            subst hm
            refine ⟨⟨hf0, hf8, hn0, hn8⟩, Or.inl (by simp only; omega), ?_,
              fun h => by first | exact absurd h hw | (simp only; omega),
              fun h => by first | exact absurd hw h | (simp only; omega)⟩
            intro t h
            simp only at h
            rw [ht] at h
            cases h
            first
              | exact hcol
              | (rw [hw]; exact hcol)
          · simp at hm
        · simp at hm
      · simp at hm
  · simp only [hw, if_false, List.mem_append, List.mem_flatMap, List.mem_cons,
      List.mem_singleton, List.not_mem_nil, or_false] at hm
    rcases hm with hm | ⟨offset, hoff, hm⟩
    · split at hm
      · rename_i hf
        obtain ⟨hf0, hf8, hfe⟩ := hf
        simp only [List.mem_cons] at hm
        rcases hm with hm | hm
        · subst hm
          refine ⟨⟨hf0, hf8, hc0, hc8⟩, Or.inl (by simp only; omega), ?_,
            fun h => by first | exact absurd h hw | (simp only; omega),
            fun h => by first | exact absurd hw h | (simp only; omega)⟩
          intro t h
          simp only at h
          rw [h] at hfe
          simp at hfe
        · split at hm
          · rename_i hd
            obtain ⟨hs, hde⟩ := hd
            simp only [List.mem_singleton] at hm
            subst hm
            refine ⟨⟨by simp only; omega, by simp only; omega, hc0, hc8⟩,
              Or.inl (by simp only; omega), ?_,
              fun h => by first | exact absurd h hw | (simp only; omega),
              fun h => by first | exact absurd hw h | (simp only; omega)⟩
            intro t h
            simp only at h
            rw [h] at hde
            simp at hde
          · simp at hm
      · simp at hm
    · split at hm
      · rename_i hb
        obtain ⟨hn0, hn8, hf0, hf8⟩ := hb
        split at hm
        · rename_i target ht
          split at hm
          · rename_i hcol
            simp only [List.mem_singleton] at hm
            subst hm
            refine ⟨⟨hf0, hf8, hn0, hn8⟩, Or.inl (by simp only; omega), ?_,
              fun h => by first | exact absurd h hw | (simp only; omega),
              fun h => by first | exact absurd hw h | (simp only; omega)⟩
            intro t h
            simp only at h
            rw [ht] at h
            cases h
            first
              | exact hcol
              | (rw [hw]; exact hcol)
          · simp at hm
        · simp at hm
      · simp at hm

theorem pieceMoves_sound (b : Board) (p : Piece) (row col : Int) (m : Square)
    (hrc : onBoard row col) (hm : m ∈ pieceMoves row col p b) :
    onBoard m.row m.col ∧ (m.row ≠ row ∨ m.col ≠ col) ∧
      ∀ t, b.get m.row m.col = some t → t.color ≠ p.color := by
  unfold pieceMoves at hm
  split at hm
  · obtain ⟨h1, h2, h3, -⟩ := getPawnMoves_sound b p row col m hrc hm
    exact ⟨h1, h2, h3⟩
  · exact getRookMoves_sound b p row col m hm
  · exact getKnightMoves_sound b p row col m hm
  · exact getBishopMoves_sound b p row col m hm
  · unfold getQueenMoves at hm
    rcases List.mem_append.mp hm with h | h
    · exact getRookMoves_sound b p row col m h
    · exact getBishopMoves_sound b p row col m h
  · exact getKingMoves_sound b p row col m hm

/-! ## The king search -/

theorem findKing_some {b : Board} {color : Color} {k : Square} (h : findKing b color = some k) :
    onBoard k.row k.col ∧
      ∃ p, b.get k.row k.col = some p ∧ p.type = Kind.king ∧ p.color = color := by
  unfold findKing at h
  have hmem := List.mem_of_find?_eq_some h
  have hp := List.find?_some h
  refine ⟨(mem_allSquares k).mp hmem, ?_⟩
  cases hg : b.get k.row k.col with
  | none => simp [hg] at hp
  | some p =>
    simp only [hg, Bool.and_eq_true, decide_eq_true_eq] at hp
    exact ⟨p, rfl, hp.1, hp.2⟩

theorem findKing_isSome_of_king {b : Board} {color : Color} {r c : Int} {p : Piece}
    (hg : b.get r c = some p) (ht : p.type = Kind.king) (hc : p.color = color) :
    ∃ k, findKing b color = some k := by
  have hb : onBoard r c := onBoard_of_get_some hg
  have : (findKing b color).isSome := by
    unfold findKing
    rw [List.find?_isSome]
    refine ⟨⟨r, c⟩, (mem_allSquares _).mpr hb, ?_⟩
    simp [hg, ht, hc]
  exact Option.isSome_iff_exists.mp this

theorem list_find_congr {α : Type} (f g : α → Bool) (l : List α)
    (h : ∀ x ∈ l, f x = g x) : l.find? f = l.find? g := by
  induction l with
  | nil => rfl
  | cons a t ih =>
    have ha : f a = g a := h a (List.mem_cons_self a t)
    have ht : t.find? f = t.find? g := ih fun x hx => h x (List.mem_cons_of_mem a hx)
    simp only [List.find?_cons, ha, ht]

theorem list_any_congr {α : Type} (f g : α → Bool) (l : List α)
    (h : ∀ x ∈ l, f x = g x) : l.any f = l.any g := by
  induction l with
  | nil => rfl
  | cons a t ih =>
    have ha : f a = g a := h a (List.mem_cons_self a t)
    have ht : t.any f = t.any g := ih fun x hx => h x (List.mem_cons_of_mem a hx)
    simp only [List.any_cons, ha, ht]

theorem findKing_congr {b b1 : Board} {color : Color}
    (h : ∀ r c, onBoard r c →
      ((∃ p, b.get r c = some p ∧ p.type = Kind.king ∧ p.color = color) ↔
        (∃ p, b1.get r c = some p ∧ p.type = Kind.king ∧ p.color = color))) :
    findKing b color = findKing b1 color := by
  unfold findKing
  apply list_find_congr
  intro sq hsq
  have hb := (mem_allSquares sq).mp hsq
  have hiff := h sq.row sq.col hb
  cases hg : b.get sq.row sq.col with
  | none =>
    cases hg1 : b1.get sq.row sq.col with
    | none => rfl
    | some q =>
      simp only [hg, hg1] at hiff ⊢
      by_cases hq : q.type = Kind.king ∧ q.color = color
      · obtain ⟨p, hp, -⟩ := hiff.mpr ⟨q, rfl, hq.1, hq.2⟩
        cases hp
      · simp only [not_and] at hq
        by_cases h1 : q.type = Kind.king
        · simp [h1, hq h1]
        · simp [h1]
  | some p =>
    cases hg1 : b1.get sq.row sq.col with
    | none =>
      simp only [hg, hg1] at hiff ⊢
      by_cases hq : p.type = Kind.king ∧ p.color = color
      · obtain ⟨p, hp, -⟩ := hiff.mp ⟨p, rfl, hq.1, hq.2⟩
        cases hp
      · simp only [not_and] at hq
        by_cases h1 : p.type = Kind.king
        · simp [h1, hq h1]
        · simp [h1]
    | some q =>
      simp only [hg, hg1] at hiff ⊢
      have e : (p.type = Kind.king ∧ p.color = color) ↔ (q.type = Kind.king ∧ q.color = color) := by
        constructor
        · intro hp
          obtain ⟨q1, hq1, hq2⟩ := hiff.mp ⟨p, rfl, hp.1, hp.2⟩
          cases hq1
          exact hq2
        · intro hq
          obtain ⟨p1, hp1, hp2⟩ := hiff.mpr ⟨q, rfl, hq.1, hq.2⟩
          cases hp1
          exact hp2
      by_cases hp : p.type = Kind.king ∧ p.color = color
      · have hq := e.mp hp
        simp [hp.1, hp.2, hq.1, hq.2]
      · have hq : ¬ (q.type = Kind.king ∧ q.color = color) := fun hq => hp (e.mpr hq)
        have l1 : (decide (p.type = Kind.king) && decide (p.color = color)) = false := by
          simpa using hp
        have l2 : (decide (q.type = Kind.king) && decide (q.color = color)) = false := by
          simpa using hq
        rw [l1, l2]

/-! ## Reads of the simulated and of the applied board -/

theorem simulateMove_get_dest (b : Board) (row col : Int) (m : Square)
    (hm : onBoard m.row m.col) (hne : m.row ≠ row ∨ m.col ≠ col) :
    (simulateMove b row col m).get m.row m.col = b.get row col := by
  unfold simulateMove
  rw [get_set_other _ _ _ _ _ _ hne, get_set_same _ _ _ _ hm]

theorem simulateMove_get_src (b : Board) (row col : Int) (m : Square) :
    (simulateMove b row col m).get row col = none := by
  unfold simulateMove
  by_cases h : onBoard row col
  · rw [get_set_same _ _ _ _ h]
  · exact get_none_of_not_onBoard _ _ _ h

theorem simulateMove_get_other (b : Board) (row col : Int) (m : Square) (r c : Int)
    (h1 : r ≠ m.row ∨ c ≠ m.col) (h2 : r ≠ row ∨ c ≠ col) :
    (simulateMove b row col m).get r c = b.get r c := by
  unfold simulateMove
  rw [get_set_other _ _ _ _ _ _ h2, get_set_other _ _ _ _ _ _ h1]

theorem movedBoard_get_dest (b : Board) (sel : Square) (row col : Int) (p : Piece)
    (hm : onBoard row col) (hne : row ≠ sel.row ∨ col ≠ sel.col) :
    (movedBoard b sel row col p).get row col =
      some (if p.type = Kind.pawn ∧ (row = 0 ∨ row = 7) then
        ⟨Kind.queen, p.color, some true⟩ else { p with moved := some true }) := by
  dsimp only [movedBoard]
  by_cases hp : p.type = Kind.pawn ∧ (row = 0 ∨ row = 7)
  · rw [if_pos hp, if_pos hp]
    rw [get_set_same _ _ _ _ hm]
  · rw [if_neg hp, if_neg hp]
    rw [get_set_other _ _ _ _ _ _ hne, get_set_same _ _ _ _ hm]

theorem movedBoard_get_src (b : Board) (sel : Square) (row col : Int) (p : Piece)
    (hne : row ≠ sel.row ∨ col ≠ sel.col) :
    (movedBoard b sel row col p).get sel.row sel.col = none := by
  have hne1 : sel.row ≠ row ∨ sel.col ≠ col := by
    rcases hne with h | h
    · exact Or.inl (Ne.symm h)
    · exact Or.inr (Ne.symm h)
  have hsrc : ((b.set row col (some { p with moved := some true })).set sel.row sel.col none).get
      sel.row sel.col = none := by
    by_cases h : onBoard sel.row sel.col
    · rw [get_set_same _ _ _ _ h]
    · exact get_none_of_not_onBoard _ _ _ h
  dsimp only [movedBoard]
  by_cases hp : p.type = Kind.pawn ∧ (row = 0 ∨ row = 7)
  · rw [if_pos hp]
    rw [get_set_other _ _ _ _ _ _ hne1]
    exact hsrc
  · rw [if_neg hp]
    exact hsrc

theorem movedBoard_get_other (b : Board) (sel : Square) (row col : Int) (p : Piece) (r c : Int)
    (h1 : r ≠ row ∨ c ≠ col) (h2 : r ≠ sel.row ∨ c ≠ sel.col) :
    (movedBoard b sel row col p).get r c = b.get r c := by
  dsimp only [movedBoard]
  by_cases hp : p.type = Kind.pawn ∧ (row = 0 ∨ row = 7)
  · rw [if_pos hp]
    rw [get_set_other _ _ _ _ _ _ h1, get_set_other _ _ _ _ _ _ h2,
      get_set_other _ _ _ _ _ _ h1]
  · rw [if_neg hp]
    rw [get_set_other _ _ _ _ _ _ h2, get_set_other _ _ _ _ _ _ h1]

/-! ## The generators read only the occupancy and the colours of a board -/

theorem colors_cases {b b1 : Board} {r c : Int}
    (h : (b.get r c).map Piece.color = (b1.get r c).map Piece.color) :
    (b.get r c = none ∧ b1.get r c = none) ∨
      ∃ t t1, b.get r c = some t ∧ b1.get r c = some t1 ∧ t.color = t1.color := by
  cases h0 : b.get r c with
  | none =>
    cases h1 : b1.get r c with
    | none => exact Or.inl ⟨rfl, rfl⟩
    | some t1 => rw [h0, h1] at h; simp at h
  | some t =>
    cases h1 : b1.get r c with
    | none => rw [h0, h1] at h; simp at h
    | some t1 =>
      rw [h0, h1] at h
      simp only [Option.map_some', Option.some.injEq] at h
      exact Or.inr ⟨t, t1, rfl, rfl, h⟩

theorem slide_congr {b b1 : Board}
    (h : ∀ r c, (b.get r c).map Piece.color = (b1.get r c).map Piece.color)
    (p : Piece) (dr dc : Int) :
    ∀ (fuel : Nat) (r c : Int), slide b p dr dc fuel r c = slide b1 p dr dc fuel r c := by
  intro fuel
  induction fuel with
  | zero => intro r c; rfl
  | succ n ih =>
    intro r c
    unfold slide
    rcases colors_cases (h r c) with ⟨e0, e1⟩ | ⟨t, t1, e0, e1, e2⟩
    · simp only [e0, e1, ih]
    · simp only [e0, e1, e2]

theorem stepTo_congr {b b1 : Board}
    (h : ∀ r c, (b.get r c).map Piece.color = (b1.get r c).map Piece.color)
    (p : Piece) (row col : Int) (d : Int × Int) :
    stepTo row col p b d = stepTo row col p b1 d := by
  unfold stepTo
  rcases colors_cases (h (row + d.1) (col + d.2)) with ⟨e0, e1⟩ | ⟨t, t1, e0, e1, e2⟩
  · simp only [e0, e1]
  · simp only [e0, e1, e2]

theorem getPawnMoves_congr {b b1 : Board}
    (h : ∀ r c, (b.get r c).map Piece.color = (b1.get r c).map Piece.color)
    (p : Piece) (row col : Int) :
    getPawnMoves row col p b = getPawnMoves row col p b1 := by
  unfold getPawnMoves
  simp only [List.flatMap_cons, List.flatMap_nil]
  generalize (if p.color = Color.white then (-1 : Int) else 1) = direction
  rcases colors_cases (h (row + direction) col) with ⟨a0, a1⟩ | ⟨_, _, a0, a1, -⟩ <;>
  rcases colors_cases (h (row + 2 * direction) col) with ⟨f0, f1⟩ | ⟨_, _, f0, f1, -⟩ <;>
  rcases colors_cases (h (row + direction) (col + -1)) with ⟨l0, l1⟩ | ⟨_, _, l0, l1, l2⟩ <;>
  rcases colors_cases (h (row + direction) (col + 1)) with ⟨r0, r1⟩ | ⟨_, _, r0, r1, r2⟩ <;>
  simp only [*, Option.isNone_some, Option.isNone_none]

theorem pieceMoves_congr {b b1 : Board}
    (h : ∀ r c, (b.get r c).map Piece.color = (b1.get r c).map Piece.color)
    (p : Piece) (row col : Int) :
    pieceMoves row col p b = pieceMoves row col p b1 := by
  unfold pieceMoves getQueenMoves getRookMoves getBishopMoves getKnightMoves getKingMoves
  have hstep : stepTo row col p b = stepTo row col p b1 := funext (stepTo_congr h p row col)
  simp only [slide_congr h, hstep, getPawnMoves_congr h]

/-- Two boards with the same occupancy and colours on every square, and the
same pieces of `byColor`, give the same answer to every attack query. -/
theorem isSquareUnderAttack_congr {b b1 : Board} (byColor : Color)
    (h : ∀ r c, (b.get r c).map Piece.color = (b1.get r c).map Piece.color)
    (hsame : ∀ r c p, b.get r c = some p → p.color = byColor → b1.get r c = some p)
    (row col : Int) :
    isSquareUnderAttack row col byColor b = isSquareUnderAttack row col byColor b1 := by
  unfold isSquareUnderAttack
  apply list_any_congr
  intro sq _
  rcases colors_cases (h sq.row sq.col) with ⟨e0, e1⟩ | ⟨t, t1, e0, e1, e2⟩
  · simp only [e0, e1]
  · by_cases hc : t.color = byColor
    · have e3 := hsame _ _ _ e0 hc
      rw [e1] at e3
      cases e3
      simp only [e0, e1, pseudoLegalMoves, pieceMoves_congr h]
    · have hc1 : ¬ t1.color = byColor := by rw [← e2]; exact hc
      simp only [e0, e1, hc, hc1, decide_False, Bool.false_and]

/-! ## The legality filter -/

theorem getValidMovesForPiece_false (row col : Int) (b : Board) :
    getValidMovesForPiece row col b false = some (pseudoLegalMoves row col b) := by
  unfold getValidMovesForPiece pseudoLegalMoves
  cases b.get row col <;> simp

theorem getValidMovesForPiece_true_of_piece {row col : Int} {b : Board} {p : Piece}
    (hp : b.get row col = some p) :
    getValidMovesForPiece row col b true =
      filterLegal b row col p (pieceMoves row col p b) := by
  unfold getValidMovesForPiece
  simp [hp]

theorem pseudoLegalMoves_of_piece {row col : Int} {b : Board} {p : Piece}
    (hp : b.get row col = some p) :
    pseudoLegalMoves row col b = pieceMoves row col p b := by
  unfold pseudoLegalMoves
  simp [hp]

theorem filterLegal_mem (b : Board) (row col : Int) (p : Piece) :
    ∀ (l ms : List Square), filterLegal b row col p l = some ms →
      ∀ m, m ∈ ms ↔ m ∈ l ∧ keepsKingSafe b row col p m = some true := by
  intro l
  induction l with
  | nil =>
    intro ms h m
    simp only [filterLegal, Option.some.injEq] at h
    subst h
    simp
  | cons a t ih =>
    intro ms h m
    unfold filterLegal at h
    cases hk : keepsKingSafe b row col p a with
    | none => simp [hk] at h
    | some keep =>
      cases ht : filterLegal b row col p t with
      | none => simp [hk, ht] at h
      | some kept =>
        simp only [hk, ht, Option.some.injEq] at h
        subst h
        have ih1 := ih kept ht m
        cases keep with
        | true =>
          simp only [if_true, List.mem_cons, ih1]
          constructor
          · rintro (rfl | ⟨h1, h2⟩)
            · exact ⟨Or.inl rfl, hk⟩
            · exact ⟨Or.inr h1, h2⟩
          · rintro ⟨rfl | h1, h2⟩
            · exact Or.inl rfl
            · exact Or.inr ⟨h1, h2⟩
        | false =>
          simp only [Bool.false_eq_true, if_false, List.mem_cons, ih1]
          constructor
          · rintro ⟨h1, h2⟩
            exact ⟨Or.inr h1, h2⟩
          · rintro ⟨rfl | h1, h2⟩
            · rw [hk] at h2; cases h2
            · exact ⟨h1, h2⟩

theorem filterLegal_sublist (b : Board) (row col : Int) (p : Piece) :
    ∀ (l ms : List Square), filterLegal b row col p l = some ms → ms.Sublist l := by
  intro l
  induction l with
  | nil =>
    intro ms h
    simp only [filterLegal, Option.some.injEq] at h
    subst h
    exact List.Sublist.refl _
  | cons a t ih =>
    intro ms h
    unfold filterLegal at h
    cases hk : keepsKingSafe b row col p a with
    | none => simp [hk] at h
    | some keep =>
      cases ht : filterLegal b row col p t with
      | none => simp [hk, ht] at h
      | some kept =>
        simp only [hk, ht, Option.some.injEq] at h
        subst h
        have ih1 := ih kept ht
        cases keep with
        | true => simpa using ih1
        | false => simpa using List.Sublist.cons a ih1

theorem filterLegal_total (b : Board) (row col : Int) (p : Piece) :
    ∀ (l : List Square), (∀ m ∈ l, ∃ v, keepsKingSafe b row col p m = some v) →
      ∃ ms, filterLegal b row col p l = some ms := by
  intro l
  induction l with
  | nil => intro _; exact ⟨[], rfl⟩
  | cons a t ih =>
    intro h
    obtain ⟨v, hv⟩ := h a (List.mem_cons_self a t)
    obtain ⟨ms, hms⟩ := ih fun m hm => h m (List.mem_cons_of_mem a hm)
    unfold filterLegal
    simp only [hv, hms]
    exact ⟨_, rfl⟩

/-- Relocating a piece of the king's colour along one of its generated moves
keeps a king of that colour on the simulated board. -/
theorem findKing_simulateMove {b : Board} {row col : Int} {p : Piece} {k0 : Square}
    {m : Square} (hp : b.get row col = some p) (hk : findKing b p.color = some k0)
    (hm : m ∈ pieceMoves row col p b) :
    ∃ k, findKing (simulateMove b row col m) p.color = some k := by
  have hrc : onBoard row col := onBoard_of_get_some hp
  obtain ⟨hmb, hne, hdest⟩ := pieceMoves_sound b p row col m hrc hm
  obtain ⟨-, q, hq, hqt, hqc⟩ := findKing_some hk
  by_cases hsrc : k0.row = row ∧ k0.col = col
  · rw [hsrc.1, hsrc.2, hp] at hq
    cases hq
    have := simulateMove_get_dest b row col m hmb hne
    rw [hp] at this
    exact findKing_isSome_of_king this hqt rfl
  · have h2 : k0.row ≠ row ∨ k0.col ≠ col := by
      by_contra hcon
      apply hsrc
      constructor
      · by_contra h1; exact hcon (Or.inl h1)
      · by_contra h1; exact hcon (Or.inr h1)
    have h1 : k0.row ≠ m.row ∨ k0.col ≠ m.col := by
      by_contra hcon
      have e1 : k0.row = m.row := by
        by_contra h1; exact hcon (Or.inl h1)
      have e2 : k0.col = m.col := by
        by_contra h1; exact hcon (Or.inr h1)
      rw [e1, e2] at hq
      exact hdest q hq hqc
    have := simulateMove_get_other b row col m k0.row k0.col h1 h2
    rw [hq] at this
    exact findKing_isSome_of_king this hqt hqc

theorem keepsKingSafe_total {b : Board} {row col : Int} {p : Piece} {k0 : Square}
    {m : Square} (hp : b.get row col = some p) (hk : findKing b p.color = some k0)
    (hm : m ∈ pieceMoves row col p b) :
    ∃ v, keepsKingSafe b row col p m = some v := by
  obtain ⟨k, hk1⟩ := findKing_simulateMove hp hk hm
  unfold keepsKingSafe
  simp only [hk1]
  exact ⟨_, rfl⟩

/-- With a king of the piece's colour on the board, the filtered call returns. -/
theorem getValidMovesForPiece_total {b : Board} {row col : Int} {p : Piece} {k0 : Square}
    (hp : b.get row col = some p) (hk : findKing b p.color = some k0) :
    ∃ ms, getValidMovesForPiece row col b true = some ms := by
  rw [getValidMovesForPiece_true_of_piece hp]
  exact filterLegal_total b row col p _ fun m hm => keepsKingSafe_total hp hk hm

/-- What membership in the filtered result means. -/
theorem mem_legal {b : Board} {row col : Int} {p : Piece} {ms : List Square} {m : Square}
    (hp : b.get row col = some p) (h : getValidMovesForPiece row col b true = some ms) :
    m ∈ ms ↔ m ∈ pieceMoves row col p b ∧
      ∃ k, findKing (simulateMove b row col m) p.color = some k ∧
        isSquareUnderAttack k.row k.col (opposite p.color) (simulateMove b row col m) = false := by
  rw [getValidMovesForPiece_true_of_piece hp] at h
  rw [filterLegal_mem b row col p _ ms h m]
  apply and_congr_right
  intro _
  unfold keepsKingSafe
  cases hk : findKing (simulateMove b row col m) p.color with
  | none => simp [hk]
  | some k => simp [hk]

/-! ## The applied board against the simulated board -/

theorem ne_of_not_both {a b c d : Int} (h : ¬ (a = b ∧ c = d)) : a ≠ b ∨ c ≠ d := by
  by_cases h1 : a = b
  · exact Or.inr fun h2 => h ⟨h1, h2⟩
  · exact Or.inl h1

/-- The piece standing on the destination after `handleSquareClick` applied a move. -/
theorem landed_color_type (p : Piece) (row : Int) :
    (if p.type = Kind.pawn ∧ (row = 0 ∨ row = 7) then
        (⟨Kind.queen, p.color, some true⟩ : Piece) else { p with moved := some true }).color
      = p.color ∧
    ((if p.type = Kind.pawn ∧ (row = 0 ∨ row = 7) then
        (⟨Kind.queen, p.color, some true⟩ : Piece) else { p with moved := some true }).type
      = Kind.king ↔ p.type = Kind.king) := by
  by_cases h : p.type = Kind.pawn ∧ (row = 0 ∨ row = 7)
  · rw [if_pos h]
    refine ⟨rfl, ?_⟩
    simp [h.1]
  · rw [if_neg h]
    exact ⟨rfl, Iff.rfl⟩

theorem movedBoard_colors (b : Board) (sel : Square) (row col : Int) (p : Piece)
    (hp : b.get sel.row sel.col = some p) (hm : onBoard row col)
    (hne : row ≠ sel.row ∨ col ≠ sel.col) (r c : Int) :
    ((simulateMove b sel.row sel.col ⟨row, col⟩).get r c).map Piece.color =
      ((movedBoard b sel row col p).get r c).map Piece.color := by
  by_cases h1 : r = row ∧ c = col
  · obtain ⟨rfl, rfl⟩ := h1
    have e1 := simulateMove_get_dest b sel.row sel.col ⟨r, c⟩ hm hne
    simp only at e1
    rw [e1, hp, movedBoard_get_dest b sel r c p hm hne]
    simp only [Option.map_some', (landed_color_type p r).1]
  · have h1 := ne_of_not_both h1
    by_cases h2 : r = sel.row ∧ c = sel.col
    · obtain ⟨rfl, rfl⟩ := h2
      rw [simulateMove_get_src, movedBoard_get_src b sel row col p hne]
    · have h2 := ne_of_not_both h2
      rw [simulateMove_get_other b sel.row sel.col ⟨row, col⟩ r c h1 h2,
        movedBoard_get_other b sel row col p r c h1 h2]

theorem movedBoard_enemy (b : Board) (sel : Square) (row col : Int) (p : Piece)
    (hp : b.get sel.row sel.col = some p) (hm : onBoard row col)
    (hne : row ≠ sel.row ∨ col ≠ sel.col) (r c : Int) (q : Piece)
    (hq : (simulateMove b sel.row sel.col ⟨row, col⟩).get r c = some q)
    (hqc : q.color = opposite p.color) :
    (movedBoard b sel row col p).get r c = some q := by
  by_cases h1 : r = row ∧ c = col
  · obtain ⟨rfl, rfl⟩ := h1
    have e1 := simulateMove_get_dest b sel.row sel.col ⟨r, c⟩ hm hne
    simp only at e1
    rw [e1, hp] at hq
    cases hq
    exact absurd hqc.symm (opposite_ne p.color)
  · have h1 := ne_of_not_both h1
    by_cases h2 : r = sel.row ∧ c = sel.col
    · obtain ⟨rfl, rfl⟩ := h2
      rw [simulateMove_get_src] at hq
      cases hq
    · have h2 := ne_of_not_both h2
      rw [simulateMove_get_other b sel.row sel.col ⟨row, col⟩ r c h1 h2] at hq
      rw [movedBoard_get_other b sel row col p r c h1 h2]
      exact hq

theorem movedBoard_kings (b : Board) (sel : Square) (row col : Int) (p : Piece)
    (hp : b.get sel.row sel.col = some p) (hm : onBoard row col)
    (hne : row ≠ sel.row ∨ col ≠ sel.col) (color : Color) (r c : Int) :
    (∃ q, (simulateMove b sel.row sel.col ⟨row, col⟩).get r c = some q ∧
        q.type = Kind.king ∧ q.color = color) ↔
      (∃ q, (movedBoard b sel row col p).get r c = some q ∧
        q.type = Kind.king ∧ q.color = color) := by
  by_cases h1 : r = row ∧ c = col
  · obtain ⟨rfl, rfl⟩ := h1
    have e1 := simulateMove_get_dest b sel.row sel.col ⟨r, c⟩ hm hne
    simp only at e1
    rw [e1, hp, movedBoard_get_dest b sel r c p hm hne]
    obtain ⟨l1, l2⟩ := landed_color_type p r
    constructor
    · rintro ⟨q, hq, hqt, hqc⟩
      cases hq
      exact ⟨_, rfl, l2.mpr hqt, l1.trans hqc⟩
    · rintro ⟨q, hq, hqt, hqc⟩
      cases hq
      exact ⟨_, rfl, l2.mp hqt, l1.symm.trans hqc⟩
  · have h1 := ne_of_not_both h1
    by_cases h2 : r = sel.row ∧ c = sel.col
    · obtain ⟨rfl, rfl⟩ := h2
      rw [simulateMove_get_src, movedBoard_get_src b sel row col p hne]
    · have h2 := ne_of_not_both h2
      rw [simulateMove_get_other b sel.row sel.col ⟨row, col⟩ r c h1 h2,
        movedBoard_get_other b sel row col p r c h1 h2]

/-- The legality filter's verdict on the simulated board carries over to the
board that the handler really builds (moved flag set, pawn promoted). -/
theorem movedBoard_king_safe {b : Board} {sel : Square} {row col : Int} {p : Piece}
    {ms : List Square} (hp : b.get sel.row sel.col = some p)
    (hms : getValidMovesForPiece sel.row sel.col b true = some ms)
    (hto : (⟨row, col⟩ : Square) ∈ ms) :
    ∃ k, findKing (movedBoard b sel row col p) p.color = some k ∧
      isSquareUnderAttack k.row k.col (opposite p.color) (movedBoard b sel row col p) = false := by
  obtain ⟨hgen, k, hk, hsafe⟩ := (mem_legal hp hms).mp hto
  have hsel : onBoard sel.row sel.col := onBoard_of_get_some hp
  obtain ⟨hm, hne, -⟩ := pieceMoves_sound b p sel.row sel.col ⟨row, col⟩ hsel hgen
  simp only at hm hne
  refine ⟨k, ?_, ?_⟩
  · rw [← hk]
    exact (findKing_congr fun r c _ => movedBoard_kings b sel row col p hp hm hne p.color r c).symm
  · rw [← hsafe]
    exact (isSquareUnderAttack_congr (opposite p.color)
      (movedBoard_colors b sel row col p hp hm hne)
      (movedBoard_enemy b sel row col p hp hm hne) k.row k.col).symm

/-! ## The click handler, branch by branch -/

theorem isValidMove_iff (moves : List Square) (row col : Int) :
    (moves.any fun move => decide (move.row = row) && decide (move.col = col)) = true ↔
      (⟨row, col⟩ : Square) ∈ moves := by
  rw [List.any_eq_true]
  constructor
  · rintro ⟨x, hx, h⟩
    simp only [Bool.and_eq_true, decide_eq_true_eq] at h
    cases x with
    | mk r c =>
      simp only at h
      rw [← h.1, ← h.2]
      exact hx
  · intro h
    exact ⟨_, h, by simp⟩

theorem handleSquareClick_mate (s : GameState) (row col : Int) (h : s.isCheckmate = true) :
    handleSquareClick s row col = some s := by
  unfold handleSquareClick
  simp [h]

/-- The state after an applied move, given the detector's answer. -/
theorem handleSquareClick_move {s s1 : GameState} {sel : Square} {row col : Int}
    (hmate : s.isCheckmate = false) (hsel : s.selectedSquare = some sel)
    (hto : (⟨row, col⟩ : Square) ∈ s.validMoves)
    (hclick : handleSquareClick s row col = some s1) :
    ∃ piece inCheck mate,
      s.board.get sel.row sel.col = some piece ∧
      checkForCheckAndCheckmate (movedBoard s.board sel row col piece)
        (opposite s.currentPlayer) = some (inCheck, mate) ∧
      s1 = { board := movedBoard s.board sel row col piece
             selectedSquare := none
             currentPlayer := opposite s.currentPlayer
             validMoves := []
             capturedPieces :=
               match s.board.get row col with
               | some cp => s.capturedPieces.append s.currentPlayer cp
               | none => s.capturedPieces
             isCheck := inCheck
             isCheckmate := mate
             moveHistory := s.moveHistory ++
               [⟨sel, ⟨row, col⟩, piece.type, (s.board.get row col).map (·.type)⟩]
             activeTimer := opposite s.currentPlayer } := by
  have hv := (isValidMove_iff s.validMoves row col).mpr hto
  unfold handleSquareClick at hclick
  simp only [hmate, hsel, hv, Bool.false_eq_true, if_false, if_true] at hclick
  cases hp : s.board.get sel.row sel.col with
  | none => simp [hp] at hclick
  | some piece =>
    simp only [hp] at hclick
    cases hc : checkForCheckAndCheckmate (movedBoard s.board sel row col piece)
        (opposite s.currentPlayer) with
    | none => simp [hc] at hclick
    | some res =>
      obtain ⟨inCheck, mate⟩ := res
      simp only [hc, Option.some.injEq] at hclick
      refine ⟨piece, inCheck, mate, rfl, hc, ?_⟩
      rw [← hclick]
      cases mate <;> simp

theorem handleSquareClick_deselect {s : GameState} {sel : Square} {row col : Int}
    (hmate : s.isCheckmate = false) (hsel : s.selectedSquare = some sel)
    (hto : (⟨row, col⟩ : Square) ∉ s.validMoves) :
    handleSquareClick s row col = some { s with selectedSquare := none, validMoves := [] } := by
  have hv : (s.validMoves.any fun move => decide (move.row = row) && decide (move.col = col))
      = false := by
    rw [← Bool.not_eq_true, isValidMove_iff]
    exact hto
  unfold handleSquareClick
  simp only [hmate, hsel, hv, Bool.false_eq_true, if_false]

theorem handleSquareClick_idle_other {s : GameState} {row col : Int}
    (hmate : s.isCheckmate = false) (hsel : s.selectedSquare = none)
    (hp : ∀ piece, s.board.get row col = some piece → piece.color ≠ s.currentPlayer) :
    handleSquareClick s row col = some s := by
  unfold handleSquareClick
  simp only [hmate, hsel, Bool.false_eq_true, if_false]
  cases hg : s.board.get row col with
  | none => rfl
  | some piece => simp [hp piece hg]

theorem handleSquareClick_idle_own {s : GameState} {row col : Int} {piece : Piece}
    (hmate : s.isCheckmate = false) (hsel : s.selectedSquare = none)
    (hg : s.board.get row col = some piece) (hc : piece.color = s.currentPlayer) :
    handleSquareClick s row col =
      (getValidMovesForPiece row col s.board true).map fun moves =>
        { s with selectedSquare := some ⟨row, col⟩, validMoves := moves } := by
  unfold handleSquareClick
  simp only [hmate, hsel, Bool.false_eq_true, if_false, hg, hc, if_true]
  cases getValidMovesForPiece row col s.board true <;> rfl

/-! ## The fuel of `slide` is never exhausted; the detector and the handler return -/

theorem slide_succ_of_off (b : Board) (p : Piece) (dr dc : Int) :
    ∀ (n : Nat) (r c : Int), ¬ onBoard (r + n * dr) (c + n * dc) →
      slide b p dr dc (n + 1) r c = slide b p dr dc n r c := by
  intro n
  induction n with
  | zero =>
    intro r c h
    simp only [Nat.cast_zero, zero_mul, add_zero] at h
    unfold onBoard at h
    simp only [slide, h, if_false]
  | succ n ih =>
    intro r c h
    have h1 : ¬ onBoard (r + dr + n * dr) (c + dc + n * dc) := by
      have e1 : r + dr + n * dr = r + ((n + 1 : Nat) : Int) * dr := by push_cast; ring
      have e2 : c + dc + n * dc = c + ((n + 1 : Nat) : Int) * dc := by push_cast; ring
      rw [e1, e2]
      exact h
    have ih1 := ih (r + dr) (c + dc) h1
    rw [slide, ih1]
    conv_rhs => rw [slide]

/-- From a square next to an on-board square, along a non-zero direction with
steps of at most one, the loop of `slide` ends within 8 iterations: more fuel
does not change the result. -/
theorem slide_fuel_enough (b : Board) (p : Piece) (row col dr dc : Int)
    (hrc : onBoard row col) (hdr : -1 ≤ dr ∧ dr ≤ 1) (hdc : -1 ≤ dc ∧ dc ≤ 1)
    (hd : dr ≠ 0 ∨ dc ≠ 0) :
    ∀ n : Nat, slide b p dr dc (8 + n) (row + dr) (col + dc) =
      slide b p dr dc 8 (row + dr) (col + dc) := by
  intro n
  induction n with
  | zero => rfl
  | succ n ih =>
    rw [← ih]
    apply slide_succ_of_off b p dr dc (8 + n)
    obtain ⟨h1, h2, h3, h4⟩ := hrc
    unfold onBoard
    have hr : dr = -1 ∨ dr = 0 ∨ dr = 1 := by omega
    have hc : dc = -1 ∨ dc = 0 ∨ dc = 1 := by omega
    push_cast
    rcases hr with rfl | rfl | rfl <;> rcases hc with rfl | rfl | rfl <;>
      first
        | exact absurd rfl (hd.elim id id)
        | omega

theorem hasValidMove_total {b : Board} {player : Color} {k0 : Square}
    (hk : findKing b player = some k0) :
    ∀ l : List Square, ∃ v, hasValidMove b player l = some v := by
  intro l
  induction l with
  | nil => exact ⟨false, rfl⟩
  | cons a t ih =>
    obtain ⟨v, hv⟩ := ih
    unfold hasValidMove
    cases ha : b.get a.row a.col with
    | none => exact ⟨v, hv⟩
    | some q =>
      by_cases hq : q.color = player
      · simp only [hq, if_true]
        have hk1 : findKing b q.color = some k0 := by rw [hq]; exact hk
        obtain ⟨ms, hms⟩ := getValidMovesForPiece_total ha hk1
        simp only [hms]
        by_cases hl : ms.length > 0
        · exact ⟨true, by simp [hl]⟩
        · exact ⟨v, by simp only [hl, if_false]; exact hv⟩
      · simp only [hq, if_false]
        exact ⟨v, hv⟩

/-- With a king of `player` on the board the detector returns. -/
theorem checkForCheckAndCheckmate_total {b : Board} {player : Color} {k0 : Square}
    (hk : findKing b player = some k0) :
    ∃ res, checkForCheckAndCheckmate b player = some res := by
  unfold checkForCheckAndCheckmate
  simp only [hk]
  by_cases hc : isSquareUnderAttack k0.row k0.col (opposite player) b = true
  · obtain ⟨v, hv⟩ := hasValidMove_total hk allSquares
    simp only [hc, if_true, hv]
    exact ⟨_, rfl⟩
  · simp only [hc, if_false]
    exact ⟨_, rfl⟩

/-- A click on a valid move of the selected piece is applied, and the handler
returns, whenever the next player still has a king on the new board. -/
theorem handleSquareClick_move_total {s : GameState} {sel : Square} {row col : Int}
    {piece : Piece} {k1 : Square}
    (hmate : s.isCheckmate = false) (hsel : s.selectedSquare = some sel)
    (hto : (⟨row, col⟩ : Square) ∈ s.validMoves)
    (hpiece : s.board.get sel.row sel.col = some piece)
    (hk : findKing (movedBoard s.board sel row col piece) (opposite s.currentPlayer) = some k1) :
    ∃ s1, handleSquareClick s row col = some s1 := by
  have hv := (isValidMove_iff s.validMoves row col).mpr hto
  obtain ⟨res, hres⟩ := checkForCheckAndCheckmate_total hk
  unfold handleSquareClick
  simp only [hmate, hsel, hv, Bool.false_eq_true, if_false, if_true, hpiece, hres]
  exact ⟨_, rfl⟩

/-! ## Claims C1 to C4: the legality filter and the generators -/

/-- C1: after `handleSquareClick` has applied a move that the legality filter
returned for the selected piece, the king of that piece's colour (found by the
row-major scan) is on the new board and is not attacked by the opposite colour.
The new board carries the moved flag and a promoted queen where the filter's
simulated board carried the unchanged piece. -/
theorem applied_legal_move_keeps_king_safe (s s1 : GameState) (sel : Square) (piece : Piece)
    (row col : Int)
    (hmate : s.isCheckmate = false)
    (hsel : s.selectedSquare = some sel)
    (hpiece : s.board.get sel.row sel.col = some piece)
    (hvalid : getValidMovesForPiece sel.row sel.col s.board true = some s.validMoves)
    (hto : (⟨row, col⟩ : Square) ∈ s.validMoves)
    (hclick : handleSquareClick s row col = some s1) :
    ∃ k, findKing s1.board piece.color = some k ∧
      isSquareUnderAttack k.row k.col (opposite piece.color) s1.board = false := by
  obtain ⟨piece1, inCheck, mate, hp1, -, hs1⟩ := handleSquareClick_move hmate hsel hto hclick
  rw [hpiece] at hp1
  cases hp1
  rw [hs1]
  exact movedBoard_king_safe hpiece hvalid hto

set_option maxRecDepth 1000000 in
theorem applied_legal_move_keeps_king_safe_witness :
    ∃ k, findKing afterPromotion.board Color.white = some k ∧
      isSquareUnderAttack k.row k.col (opposite Color.white) afterPromotion.board = false :=
  applied_legal_move_keeps_king_safe promotionReady afterPromotion ⟨1, 7⟩
    ⟨Kind.pawn, Color.white, some true⟩ 0 7 rfl rfl (by decide) (by decide) (by decide)
    (by rfl)

theorem hasValidMove_false (b : Board) (player : Color) :
    ∀ l : List Square, hasValidMove b player l = some false →
      ∀ sq ∈ l, ∀ p, b.get sq.row sq.col = some p → p.color = player →
        getValidMovesForPiece sq.row sq.col b true = some [] := by
  intro l
  induction l with
  | nil => intro _ sq hsq; cases hsq
  | cons a t ih =>
    intro h sq hsq p hp hc
    unfold hasValidMove at h
    cases ha : b.get a.row a.col with
    | none =>
      simp only [ha] at h
      rcases List.mem_cons.mp hsq with rfl | hmem
      · rw [ha] at hp; cases hp
      · exact ih h sq hmem p hp hc
    | some q =>
      simp only [ha] at h
      by_cases hq : q.color = player
      · simp only [hq, if_true] at h
        cases hv : getValidMovesForPiece a.row a.col b true with
        | none => simp [hv] at h
        | some moves =>
          simp only [hv] at h
          by_cases hl : moves.length > 0
          · simp [hl] at h
          · simp only [hl, if_false] at h
            rcases List.mem_cons.mp hsq with rfl | hmem
            · have : moves = [] := List.length_eq_zero.mp (by omega)
              rw [hv, this]
            · exact ih h sq hmem p hp hc
      · simp only [hq, if_false] at h
        rcases List.mem_cons.mp hsq with rfl | hmem
        · rw [ha] at hp; cases hp; exact absurd hc hq
        · exact ih h sq hmem p hp hc

/-- When the detector asks for `setIsCheckmate(true)` it has found the player in
check and every piece of the player without a legal destination. -/
theorem checkForCheckAndCheckmate_mate {b : Board} {player : Color} {inCheck : Bool}
    (h : checkForCheckAndCheckmate b player = some (inCheck, true)) :
    inCheck = true ∧
      ∀ r c p, b.get r c = some p → p.color = player →
        getValidMovesForPiece r c b true = some [] := by
  unfold checkForCheckAndCheckmate at h
  cases hk : findKing b player with
  | none => simp [hk] at h
  | some kingPos =>
    simp only [hk] at h
    by_cases hc : isSquareUnderAttack kingPos.row kingPos.col (opposite player) b = true
    · simp only [hc, if_true] at h
      cases hv : hasValidMove b player allSquares with
      | none => simp [hv] at h
      | some found =>
        simp only [hv, Option.some.injEq, Prod.mk.injEq, Bool.not_eq_true'] at h
        obtain ⟨h1, h2⟩ := h
        refine ⟨h1.symm, ?_⟩
        intro r c p hp hpc
        rw [h2] at hv
        exact hasValidMove_false b player allSquares hv ⟨r, c⟩
          ((mem_allSquares _).mpr (onBoard_of_get_some hp)) p hp hpc
    · simp [hc] at h

/-- The checkmate invariant of the state. -/
theorem mate_invariant_step (s s1 : GameState) (e : Event)
    (hinv : s.isCheckmate = true → s.isCheck = true ∧
      ∀ r c p, s.board.get r c = some p → p.color = s.currentPlayer →
        getValidMovesForPiece r c s.board true = some [])
    (hstep : step s e = some s1) :
    s1.isCheckmate = true → s1.isCheck = true ∧
      ∀ r c p, s1.board.get r c = some p → p.color = s1.currentPlayer →
        getValidMovesForPiece r c s1.board true = some [] := by
  cases e with
  | reset =>
    simp only [step, resetGame, Option.some.injEq] at hstep
    subst hstep
    intro h
    cases h
  | click row col =>
    simp only [step] at hstep
    cases hm : s.isCheckmate with
    | true =>
      rw [handleSquareClick_mate s _ _ hm] at hstep
      cases hstep
      exact hinv
    | false =>
      cases hsel : s.selectedSquare with
      | some sel =>
        by_cases hto : (⟨(row.val : Int), (col.val : Int)⟩ : Square) ∈ s.validMoves
        · obtain ⟨piece, inCheck, mate, -, hc, hs1⟩ := handleSquareClick_move hm hsel hto hstep
          subst hs1
          intro hmate
          simp only at hmate
          subst hmate
          exact checkForCheckAndCheckmate_mate hc
        · rw [handleSquareClick_deselect hm hsel hto] at hstep
          cases hstep
          intro h
          simp only [hm] at h
          cases h
      | none =>
        cases hg : s.board.get row.val col.val with
        | none =>
          rw [handleSquareClick_idle_other hm hsel (fun p hp => by rw [hg] at hp; cases hp)]
            at hstep
          cases hstep
          intro h
          rw [hm] at h
          cases h
        | some piece =>
          by_cases hc : piece.color = s.currentPlayer
          · rw [handleSquareClick_idle_own hm hsel hg hc] at hstep
            cases hv : getValidMovesForPiece row.val col.val s.board true with
            | none => simp [hv] at hstep
            | some moves =>
              simp only [hv, Option.map_some', Option.some.injEq] at hstep
              subst hstep
              intro h
              simp only [hm] at h
              cases h
          · rw [handleSquareClick_idle_other hm hsel
              (fun p hp => by rw [hg] at hp; cases hp; exact hc)] at hstep
            cases hstep
            intro h
            rw [hm] at h
            cases h

theorem mate_invariant_run :
    ∀ (es : List Event) (s s1 : GameState),
      (s.isCheckmate = true → s.isCheck = true ∧
        ∀ r c p, s.board.get r c = some p → p.color = s.currentPlayer →
          getValidMovesForPiece r c s.board true = some []) →
      run s es = some s1 →
      (s1.isCheckmate = true → s1.isCheck = true ∧
        ∀ r c p, s1.board.get r c = some p → p.color = s1.currentPlayer →
          getValidMovesForPiece r c s1.board true = some []) := by
  intro es
  induction es with
  | nil =>
    intro s s1 hinv hrun
    simp only [run, Option.some.injEq] at hrun
    subst hrun
    exact hinv
  | cons e t ih =>
    intro s s1 hinv hrun
    unfold run at hrun
    cases hs : step s e with
    | none => simp [hs] at hrun
    | some s2 =>
      simp only [hs] at hrun
      exact ih s2 s1 (mate_invariant_step s s2 e hinv hs) hrun

/-- C2: in every state reachable from the initial state by clicks and resets,
`isCheckmate` implies `isCheck`, and then `getValidMovesForPiece(r, c, board, true)`
is empty for every square holding a piece of `currentPlayer`. -/
theorem checkmate_implies_check_and_no_legal_move (s : GameState) (hreach : Reachable s)
    (hmate : s.isCheckmate = true) :
    s.isCheck = true ∧
      ∀ r c p, onBoard r c → s.board.get r c = some p → p.color = s.currentPlayer →
        getValidMovesForPiece r c s.board true = some [] := by
  obtain ⟨es, hrun⟩ := hreach
  have h := mate_invariant_run es initialState s (fun h => by cases h) hrun hmate
  exact ⟨h.1, fun r c p _ hp hc => h.2 r c p hp hc⟩

set_option maxRecDepth 1000000 in
theorem checkmate_implies_check_and_no_legal_move_witness :
    foolsMate.isCheck = true ∧
      ∀ r c p, onBoard r c → foolsMate.board.get r c = some p →
        p.color = foolsMate.currentPlayer →
        getValidMovesForPiece r c foolsMate.board true = some [] :=
  checkmate_implies_check_and_no_legal_move foolsMate ⟨foolsMateClicks, by rfl⟩ rfl

/-- C3: with a king of the piece's colour on the board, both calls return, and
the filtered result is a sublist of the unfiltered one: every destination of
`getValidMovesForPiece(row, col, board, true)` is a destination of
`getValidMovesForPiece(row, col, board, false)`. -/
theorem legal_moves_subset_pseudo_legal (b : Board) (row col : Int) (piece : Piece)
    (k0 : Square) (hpiece : b.get row col = some piece)
    (hking : findKing b piece.color = some k0) :
    ∃ legal pseudo,
      getValidMovesForPiece row col b true = some legal ∧
      getValidMovesForPiece row col b false = some pseudo ∧
      legal.Sublist pseudo ∧ ∀ m ∈ legal, m ∈ pseudo := by
  obtain ⟨legal, hlegal⟩ := getValidMovesForPiece_total hpiece hking
  refine ⟨legal, pseudoLegalMoves row col b, hlegal, getValidMovesForPiece_false row col b, ?_⟩
  rw [getValidMovesForPiece_true_of_piece hpiece] at hlegal
  have hsub := filterLegal_sublist b row col piece _ legal hlegal
  rw [pseudoLegalMoves_of_piece hpiece]
  exact ⟨hsub, fun m hm => hsub.subset hm⟩

theorem legal_moves_subset_pseudo_legal_witness :
    ∃ legal pseudo,
      getValidMovesForPiece 7 4 foolsMateBoard true = some legal ∧
      getValidMovesForPiece 7 4 foolsMateBoard false = some pseudo ∧
      legal.Sublist pseudo ∧ ∀ m ∈ legal, m ∈ pseudo :=
  legal_moves_subset_pseudo_legal foolsMateBoard 7 4 ⟨Kind.king, Color.white, some false⟩
    ⟨7, 4⟩ (by decide) (by decide)

/-- C4: every destination that the unfiltered generator returns for a piece on
an on-board square lies on the board and differs from the piece's own square. -/
theorem pseudo_legal_destinations_on_board (b : Board) (row col : Int) (piece : Piece)
    (hrc : onBoard row col) (hpiece : b.get row col = some piece) :
    ∃ moves, getValidMovesForPiece row col b false = some moves ∧
      ∀ m ∈ moves, 0 ≤ m.row ∧ m.row < 8 ∧ 0 ≤ m.col ∧ m.col < 8 ∧
        ¬ (m.row = row ∧ m.col = col) := by
  refine ⟨pseudoLegalMoves row col b, getValidMovesForPiece_false row col b, ?_⟩
  intro m hm
  rw [pseudoLegalMoves_of_piece hpiece] at hm
  obtain ⟨⟨h1, h2, h3, h4⟩, hne, -⟩ := pieceMoves_sound b piece row col m hrc hm
  refine ⟨h1, h2, h3, h4, ?_⟩
  rintro ⟨e1, e2⟩
  rcases hne with h | h
  · exact h e1
  · exact h e2

theorem pseudo_legal_destinations_on_board_witness :
    ∃ moves, getValidMovesForPiece 4 7 foolsMateBoard false = some moves ∧
      ∀ m ∈ moves, 0 ≤ m.row ∧ m.row < 8 ∧ 0 ≤ m.col ∧ m.col < 8 ∧
        ¬ (m.row = 4 ∧ m.col = 7) :=
  pseudo_legal_destinations_on_board foolsMateBoard 4 7 ⟨Kind.queen, Color.black, some true⟩
    (by decide) (by decide)

/-! ## Claims C5 to C10: the initial position and the click handler -/

set_option maxRecDepth 1000000 in
/-- C5: on the board of `initializeBoard()` the destinations returned by
`getValidMovesForPiece(r, c, board, true)`, counted over all squares holding a
white piece, are 20 in total, and so are those of the black pieces. -/
theorem initial_position_has_twenty_legal_moves :
    countLegalMoves initializeBoard Color.white allSquares = some 20 ∧
      countLegalMoves initializeBoard Color.black allSquares = some 20 := by
  constructor <;> decide

/-- A pawn's generated destination is on row 0 or row 7 exactly when it is on
the far rank of the pawn's own colour. -/
theorem pawn_far_rank {b : Board} {sel : Square} {piece : Piece} {row col : Int}
    (hsel : onBoard sel.row sel.col) (hpawn : piece.type = Kind.pawn)
    (hgen : (⟨row, col⟩ : Square) ∈ pieceMoves sel.row sel.col piece b) :
    (row = 0 ∨ row = 7) ↔ row = (if piece.color = Color.white then 0 else 7) := by
  unfold pieceMoves at hgen
  simp only [hpawn] at hgen
  obtain ⟨⟨h0, h8, -, -⟩, -, -, hw, hb⟩ := getPawnMoves_sound b piece sel.row sel.col _ hsel hgen
  obtain ⟨s0, s8, -, -⟩ := hsel
  simp only at h0 h8 hw hb
  by_cases hc : piece.color = Color.white
  · have := hw hc
    simp only [hc, if_true]
    omega
  · have := hb hc
    simp only [hc, if_false]
    omega

/-- C6: after an applied legal move, a pawn that reached the far rank of its
colour (row 0 for white, row 7 for black) stands on the destination as a queen of
the same colour with `moved = true`; in every other case the destination holds
the moved piece itself (same kind and colour) with `moved = true`.  The colour-blind
test `row === 0 || row === 7` of the code agrees with the colour-specific rule. -/
theorem promotion_on_far_rank (s s1 : GameState) (sel : Square) (piece : Piece)
    (row col : Int)
    (hmate : s.isCheckmate = false)
    (hsel : s.selectedSquare = some sel)
    (hpiece : s.board.get sel.row sel.col = some piece)
    (hvalid : getValidMovesForPiece sel.row sel.col s.board true = some s.validMoves)
    (hto : (⟨row, col⟩ : Square) ∈ s.validMoves)
    (hclick : handleSquareClick s row col = some s1) :
    (piece.type = Kind.pawn ∧ row = (if piece.color = Color.white then 0 else 7) →
        s1.board.get row col = some ⟨Kind.queen, piece.color, some true⟩) ∧
      (¬ (piece.type = Kind.pawn ∧ row = (if piece.color = Color.white then 0 else 7)) →
        s1.board.get row col = some { piece with moved := some true }) := by
  obtain ⟨piece1, inCheck, mate, hp1, -, hs1⟩ := handleSquareClick_move hmate hsel hto hclick
  rw [hpiece] at hp1
  cases hp1
  have hgen := ((mem_legal hpiece hvalid).mp hto).1
  have hselb : onBoard sel.row sel.col := onBoard_of_get_some hpiece
  obtain ⟨hm, hne, -⟩ := pieceMoves_sound s.board piece sel.row sel.col ⟨row, col⟩ hselb hgen
  simp only at hm hne
  have hdest := movedBoard_get_dest s.board sel row col piece hm hne
  subst hs1
  simp only
  constructor
  · rintro ⟨hpawn, hrow⟩
    rw [hdest, if_pos ⟨hpawn, (pawn_far_rank hselb hpawn hgen).mpr hrow⟩]
  · intro hnot
    rw [hdest, if_neg]
    rintro ⟨hpawn, hrow⟩
    exact hnot ⟨hpawn, (pawn_far_rank hselb hpawn hgen).mp hrow⟩

set_option maxRecDepth 1000000 in
theorem promotion_on_far_rank_witness :
    ((Kind.pawn = Kind.pawn ∧ (0 : Int) = (if Color.white = Color.white then 0 else 7)) →
        afterPromotion.board.get 0 7 = some ⟨Kind.queen, Color.white, some true⟩) ∧
      (¬ (Kind.pawn = Kind.pawn ∧ (0 : Int) = (if Color.white = Color.white then 0 else 7)) →
        afterPromotion.board.get 0 7 = some ⟨Kind.pawn, Color.white, some true⟩) :=
  promotion_on_far_rank promotionReady afterPromotion ⟨1, 7⟩
    ⟨Kind.pawn, Color.white, some true⟩ 0 7 rfl rfl (by decide) (by decide) (by decide)
    (by rfl)

theorem capturedPieces_append_get (cp : CapturedPieces) (color : Color) (p : Piece) :
    (cp.append color p).get color = cp.get color ++ [p] ∧
      (cp.append color p).get (opposite color) = cp.get (opposite color) := by
  cases color <;> exact ⟨rfl, rfl⟩

/-- C7: when an applied legal move lands on an occupied square, the piece there
is of the colour opposite to the moving piece, that piece is appended as the
last entry of `capturedPieces[currentPlayer]`, the other list is unchanged, and
the destination then holds the moving piece (or its promoted queen); when the
destination was empty, `capturedPieces` is unchanged. -/
theorem capture_bookkeeping (s s1 : GameState) (sel : Square) (piece : Piece)
    (row col : Int)
    (hmate : s.isCheckmate = false)
    (hsel : s.selectedSquare = some sel)
    (hpiece : s.board.get sel.row sel.col = some piece)
    (hvalid : getValidMovesForPiece sel.row sel.col s.board true = some s.validMoves)
    (hto : (⟨row, col⟩ : Square) ∈ s.validMoves)
    (hclick : handleSquareClick s row col = some s1) :
    (∀ target, s.board.get row col = some target →
        target.color = opposite piece.color ∧
        s1.capturedPieces.get s.currentPlayer =
          s.capturedPieces.get s.currentPlayer ++ [target] ∧
        s1.capturedPieces.get (opposite s.currentPlayer) =
          s.capturedPieces.get (opposite s.currentPlayer) ∧
        s1.board.get row col =
          some (if piece.type = Kind.pawn ∧ (row = 0 ∨ row = 7) then
            ⟨Kind.queen, piece.color, some true⟩ else { piece with moved := some true })) ∧
      (s.board.get row col = none → s1.capturedPieces = s.capturedPieces) := by
  obtain ⟨piece1, inCheck, mate, hp1, -, hs1⟩ := handleSquareClick_move hmate hsel hto hclick
  rw [hpiece] at hp1
  cases hp1
  have hgen := ((mem_legal hpiece hvalid).mp hto).1
  have hselb : onBoard sel.row sel.col := onBoard_of_get_some hpiece
  obtain ⟨hm, hne, henemy⟩ :=
    pieceMoves_sound s.board piece sel.row sel.col ⟨row, col⟩ hselb hgen
  simp only at hm hne henemy
  have hdest := movedBoard_get_dest s.board sel row col piece hm hne
  subst hs1
  constructor
  · intro target ht
    simp only [ht]
    obtain ⟨a1, a2⟩ := capturedPieces_append_get s.capturedPieces s.currentPlayer target
    exact ⟨(ne_opposite_iff _ _).mp (henemy target ht), a1, a2, hdest⟩
  · intro hnone
    simp only [hnone]

set_option maxRecDepth 1000000 in
theorem capture_bookkeeping_witness :
    (∀ target, captureReady.board.get 3 3 = some target →
        target.color = opposite Color.white ∧
        afterCapture.capturedPieces.get captureReady.currentPlayer =
          captureReady.capturedPieces.get captureReady.currentPlayer ++ [target] ∧
        afterCapture.capturedPieces.get (opposite captureReady.currentPlayer) =
          captureReady.capturedPieces.get (opposite captureReady.currentPlayer) ∧
        afterCapture.board.get 3 3 =
          some (if Kind.pawn = Kind.pawn ∧ ((3 : Int) = 0 ∨ (3 : Int) = 7) then
            ⟨Kind.queen, Color.white, some true⟩
            else ⟨Kind.pawn, Color.white, some true⟩)) ∧
      (captureReady.board.get 3 3 = none →
        afterCapture.capturedPieces = captureReady.capturedPieces) :=
  capture_bookkeeping captureReady afterCapture ⟨4, 4⟩ ⟨Kind.pawn, Color.white, some true⟩
    3 3 rfl rfl (by decide) (by decide) (by decide) (by rfl)

set_option maxRecDepth 1000000 in
/-- C8, as stated, fails: from the initial state, selecting the white pawn on
(6,4) and then clicking the white pawn on (6,3), which is not among the valid
moves, leaves no square selected and no valid moves, while the same click from
the idle state selects (6,3) with its two destinations. -/
theorem click_on_own_piece_while_selected_counterexample :
    (∃ s1, run initialState [Event.click 6 4, Event.click 6 3] = some s1 ∧
        s1.selectedSquare = none ∧ s1.validMoves = []) ∧
      (∃ s2, run initialState [Event.click 6 3] = some s2 ∧
        s2.selectedSquare = some ⟨6, 3⟩ ∧ s2.validMoves = [⟨5, 3⟩, ⟨4, 3⟩]) :=
  ⟨⟨{ selectedE2 with selectedSquare := none, validMoves := [] }, by rfl, rfl, rfl⟩,
    ⟨{ initialState with selectedSquare := some ⟨6, 3⟩, validMoves := [⟨5, 3⟩, ⟨4, 3⟩] },
      by rfl, rfl, rfl⟩⟩

/-- C8, amended: in a Selected state that is not checkmate, a click on a square
that is not among `validMoves` only clears the selection, also when the square
holds another piece of `currentPlayer`; that piece is selected by a second click
on it, which then acts as a click from Idle. -/
theorem click_off_valid_moves_clears_selection (s : GameState) (sel : Square)
    (row col : Int) (piece : Piece) (moves : List Square)
    (hmate : s.isCheckmate = false)
    (hsel : s.selectedSquare = some sel)
    (hto : (⟨row, col⟩ : Square) ∉ s.validMoves)
    (hpiece : s.board.get row col = some piece)
    (hown : piece.color = s.currentPlayer)
    (hmoves : getValidMovesForPiece row col s.board true = some moves) :
    handleSquareClick s row col = some { s with selectedSquare := none, validMoves := [] } ∧
      handleSquareClick { s with selectedSquare := none, validMoves := [] } row col =
        some { s with selectedSquare := some ⟨row, col⟩, validMoves := moves } := by
  refine ⟨handleSquareClick_deselect hmate hsel hto, ?_⟩
  have hidle := @handleSquareClick_idle_own
    { s with selectedSquare := none, validMoves := [] } row col piece hmate rfl hpiece hown
  rw [hidle]
  simp only [hmoves, Option.map_some']

set_option maxRecDepth 1000000 in
theorem click_off_valid_moves_clears_selection_witness :
    handleSquareClick selectedE2 6 3 =
        some { selectedE2 with selectedSquare := none, validMoves := [] } ∧
      handleSquareClick { selectedE2 with selectedSquare := none, validMoves := [] } 6 3 =
        some { selectedE2 with selectedSquare := some ⟨6, 3⟩,
                               validMoves := [⟨5, 3⟩, ⟨4, 3⟩] } :=
  click_off_valid_moves_clears_selection selectedE2 ⟨6, 4⟩ 6 3
    ⟨Kind.pawn, Color.white, some false⟩ [⟨5, 3⟩, ⟨4, 3⟩] rfl rfl (by decide) (by decide)
    rfl (by decide)

theorem run_clicks_mate (s : GameState) (h : s.isCheckmate = true) :
    ∀ clicks : List (Fin 8 × Fin 8),
      run s (clicks.map fun rc => Event.click rc.1 rc.2) = some s := by
  intro clicks
  induction clicks with
  | nil => rfl
  | cons a t ih =>
    simp only [List.map_cons, run, step, handleSquareClick_mate s _ _ h]
    exact ih

/-- C9: in a state with `isCheckmate = true`, `handleSquareClick(row, col)` returns
the state unchanged for every square, and so does every sequence of clicks: no
move is applied once checkmate is reached. -/
theorem clicks_after_checkmate_are_noops (s : GameState) (row col : Int)
    (hmate : s.isCheckmate = true) :
    handleSquareClick s row col = some s ∧
      ∀ clicks : List (Fin 8 × Fin 8),
        run s (clicks.map fun rc => Event.click rc.1 rc.2) = some s :=
  ⟨handleSquareClick_mate s row col hmate, run_clicks_mate s hmate⟩

theorem clicks_after_checkmate_are_noops_witness :
    handleSquareClick foolsMate 7 4 = some foolsMate ∧
      ∀ clicks : List (Fin 8 × Fin 8),
        run foolsMate (clicks.map fun rc => Event.click rc.1 rc.2) = some foolsMate :=
  clicks_after_checkmate_are_noops foolsMate 7 4 rfl

/-- C10: after `handleSquareClick`, `currentPlayer` is the opposite colour exactly
when the click applied a move (the state was not checkmate, a square was
selected and the clicked square was among `validMoves`); after every other click
`currentPlayer` is unchanged. -/
theorem current_player_toggles_iff_move_applied (s s1 : GameState) (row col : Int)
    (hclick : handleSquareClick s row col = some s1) :
    (s1.currentPlayer = opposite s.currentPlayer ↔
        (s.isCheckmate = false ∧ s.selectedSquare ≠ none ∧
          (⟨row, col⟩ : Square) ∈ s.validMoves)) ∧
      (¬ (s.isCheckmate = false ∧ s.selectedSquare ≠ none ∧
          (⟨row, col⟩ : Square) ∈ s.validMoves) →
        s1.currentPlayer = s.currentPlayer) := by
  have key : (s.isCheckmate = false ∧ s.selectedSquare ≠ none ∧
      (⟨row, col⟩ : Square) ∈ s.validMoves) → s1.currentPlayer = opposite s.currentPlayer := by
    rintro ⟨hm, hsel, hto⟩
    cases hs : s.selectedSquare with
    | none => exact absurd hs hsel
    | some sel =>
      obtain ⟨_, _, _, -, -, hs1⟩ := handleSquareClick_move hm hs hto hclick
      rw [hs1]
  have other : ¬ (s.isCheckmate = false ∧ s.selectedSquare ≠ none ∧
      (⟨row, col⟩ : Square) ∈ s.validMoves) → s1.currentPlayer = s.currentPlayer := by
    intro hnot
    cases hm : s.isCheckmate with
    | true =>
      rw [handleSquareClick_mate s _ _ hm] at hclick
      cases hclick
      rfl
    | false =>
      cases hsel : s.selectedSquare with
      | some sel =>
        have hto : (⟨row, col⟩ : Square) ∉ s.validMoves := fun hto =>
          hnot ⟨hm, by rw [hsel]; exact Option.noConfusion, hto⟩
        rw [handleSquareClick_deselect hm hsel hto] at hclick
        cases hclick
        rfl
      | none =>
        cases hg : s.board.get row col with
        | none =>
          rw [handleSquareClick_idle_other hm hsel (fun p hp => by rw [hg] at hp; cases hp)]
            at hclick
          cases hclick
          rfl
        | some piece =>
          by_cases hc : piece.color = s.currentPlayer
          · rw [handleSquareClick_idle_own hm hsel hg hc] at hclick
            cases hv : getValidMovesForPiece row col s.board true with
            | none => simp [hv] at hclick
            | some moves =>
              simp only [hv, Option.map_some', Option.some.injEq] at hclick
              subst hclick
              rfl
          · rw [handleSquareClick_idle_other hm hsel
              (fun p hp => by rw [hg] at hp; cases hp; exact hc)] at hclick
            cases hclick
            rfl
  refine ⟨⟨?_, key⟩, other⟩
  intro htoggle
  by_contra hnot
  have := other hnot
  rw [this] at htoggle
  exact opposite_ne s.currentPlayer htoggle.symm

set_option maxRecDepth 1000000 in
theorem current_player_toggles_iff_move_applied_witness :
    (afterCapture.currentPlayer = opposite captureReady.currentPlayer ↔
        (captureReady.isCheckmate = false ∧ captureReady.selectedSquare ≠ none ∧
          (⟨3, 3⟩ : Square) ∈ captureReady.validMoves)) ∧
      (¬ (captureReady.isCheckmate = false ∧ captureReady.selectedSquare ≠ none ∧
          (⟨3, 3⟩ : Square) ∈ captureReady.validMoves) →
        afterCapture.currentPlayer = captureReady.currentPlayer) :=
  current_player_toggles_iff_move_applied captureReady afterCapture 3 3 (by rfl)

/-! ## Claim C11: what the detector writes after a move -/

theorem hasValidMove_true (b : Board) (player : Color) :
    ∀ l : List Square, hasValidMove b player l = some true →
      ∃ sq ∈ l, ∃ p ms, b.get sq.row sq.col = some p ∧ p.color = player ∧
        getValidMovesForPiece sq.row sq.col b true = some ms ∧ ms ≠ [] := by
  intro l
  induction l with
  | nil => intro h; simp [hasValidMove] at h
  | cons a t ih =>
    intro h
    have lift : (∃ sq ∈ t, ∃ p ms, b.get sq.row sq.col = some p ∧ p.color = player ∧
        getValidMovesForPiece sq.row sq.col b true = some ms ∧ ms ≠ []) →
        ∃ sq ∈ a :: t, ∃ p ms, b.get sq.row sq.col = some p ∧ p.color = player ∧
          getValidMovesForPiece sq.row sq.col b true = some ms ∧ ms ≠ [] := by
      rintro ⟨sq, hsq, rest⟩
      exact ⟨sq, List.mem_cons_of_mem a hsq, rest⟩
    unfold hasValidMove at h
    cases ha : b.get a.row a.col with
    | none =>
      simp only [ha] at h
      exact lift (ih h)
    | some q =>
      simp only [ha] at h
      by_cases hq : q.color = player
      · simp only [hq, if_true] at h
        cases hv : getValidMovesForPiece a.row a.col b true with
        | none => simp [hv] at h
        | some moves =>
          simp only [hv] at h
          by_cases hl : moves.length > 0
          · refine ⟨a, List.mem_cons_self a t, q, moves, ha, hq, hv, ?_⟩
            intro he
            rw [he] at hl
            simp at hl
          · simp only [hl, if_false] at h
            exact lift (ih h)
      · simp only [hq, if_false] at h
        exact lift (ih h)

/-- The two results of the detector, read off its definition. -/
theorem checkForCheckAndCheckmate_spec {b : Board} {player : Color} {inCheck mate : Bool}
    (h : checkForCheckAndCheckmate b player = some (inCheck, mate)) :
    ∃ k, findKing b player = some k ∧
      inCheck = isSquareUnderAttack k.row k.col (opposite player) b ∧
      (mate = true ↔ inCheck = true ∧
        ∀ r c p, b.get r c = some p → p.color = player →
          getValidMovesForPiece r c b true = some []) := by
  cases mate with
  | true =>
    obtain ⟨h1, h2⟩ := checkForCheckAndCheckmate_mate h
    unfold checkForCheckAndCheckmate at h
    cases hk : findKing b player with
    | none => simp [hk] at h
    | some k =>
      refine ⟨k, rfl, ?_, ?_⟩
      · simp only [hk] at h
        split at h
        · rename_i hc
          rw [h1, hc]
        · simp at h
      · exact ⟨fun _ => ⟨h1, h2⟩, fun _ => rfl⟩
  | false =>
    unfold checkForCheckAndCheckmate at h
    cases hk : findKing b player with
    | none => simp [hk] at h
    | some k =>
      simp only [hk] at h
      refine ⟨k, rfl, ?_, ?_⟩
      · split at h
        · cases hv : hasValidMove b player allSquares with
          | none => simp [hv] at h
          | some found =>
            simp only [hv, Option.some.injEq, Prod.mk.injEq] at h
            exact h.1.symm
        · simp only [Option.some.injEq, Prod.mk.injEq, and_true] at h
          exact h.symm
      · constructor
        · intro hf
          cases hf
        · rintro ⟨hin, hall⟩
          exfalso
          split at h
          · cases hv : hasValidMove b player allSquares with
            | none => simp [hv] at h
            | some found =>
              simp only [hv, Option.some.injEq, Prod.mk.injEq, Bool.not_eq_false'] at h
              obtain ⟨-, hfound⟩ := h
              rw [hfound] at hv
              obtain ⟨sq, -, p, ms, hp, hpc, hms, hne⟩ := hasValidMove_true b player _ hv
              have := hall sq.row sq.col p hp hpc
              rw [hms] at this
              exact hne (Option.some.inj this)
          · rename_i hc
            simp only [Option.some.injEq, Prod.mk.injEq, and_true] at h
            rw [← h] at hin
            exact hc hin

set_option maxRecDepth 1000000 in
/-- C11: after `handleSquareClick` has applied a move from a non-checkmate
state, with a king of the next player `p` on the new board `B`, the handler
returns, the new `isCheck` is `isSquareUnderAttack(king square of p, opposite(p), B)`,
and the new `isCheckmate` is true exactly when that `isCheck` is true and
`getValidMovesForPiece(r, c, B, true)` is empty for every square holding a piece
of `p`.  A stalemating move leaves `isCheck` and `isCheckmate` false although the
next player has no legal move, and the next click is still processed; the
back-rank mate against the black king on (0,4) yields `isCheck = true` and
`isCheckmate = true`. -/
theorem detector_result_after_move :
    (∀ (s : GameState) (sel : Square) (piece : Piece) (row col : Int) (k : Square),
      s.isCheckmate = false → s.selectedSquare = some sel →
      s.board.get sel.row sel.col = some piece →
      (⟨row, col⟩ : Square) ∈ s.validMoves →
      findKing (movedBoard s.board sel row col piece) (opposite s.currentPlayer) = some k →
      ∃ s1, handleSquareClick s row col = some s1 ∧
        s1.board = movedBoard s.board sel row col piece ∧
        s1.currentPlayer = opposite s.currentPlayer ∧
        s1.isCheck = isSquareUnderAttack k.row k.col (opposite s1.currentPlayer) s1.board ∧
        (s1.isCheckmate = true ↔ s1.isCheck = true ∧
          ∀ r c p, s1.board.get r c = some p → p.color = s1.currentPlayer →
            getValidMovesForPiece r c s1.board true = some [])) ∧
    (handleSquareClick stalemateReady 2 1 = some afterStalemate ∧
      afterStalemate.isCheck = false ∧ afterStalemate.isCheckmate = false ∧
      countLegalMoves afterStalemate.board afterStalemate.currentPlayer allSquares = some 0 ∧
      handleSquareClick afterStalemate 0 0 =
        some { afterStalemate with selectedSquare := some ⟨0, 0⟩, validMoves := [] }) ∧
    (handleSquareClick backRankReady 0 0 = some afterBackRank ∧
      findKing afterBackRank.board afterBackRank.currentPlayer = some ⟨0, 4⟩ ∧
      afterBackRank.isCheck = true ∧ afterBackRank.isCheckmate = true) := by
  refine ⟨?_, ⟨by rfl, rfl, rfl, by decide, by rfl⟩, ⟨by rfl, by decide, rfl, rfl⟩⟩
  intro s sel piece row col k hmate hsel hpiece hto hking
  obtain ⟨s1, hclick⟩ := handleSquareClick_move_total hmate hsel hto hpiece hking
  obtain ⟨piece1, inCheck, mate, hp1, hc, hs1⟩ := handleSquareClick_move hmate hsel hto hclick
  rw [hpiece] at hp1
  cases hp1
  obtain ⟨k1, hk1, hin, hiff⟩ := checkForCheckAndCheckmate_spec hc
  rw [hking] at hk1
  cases hk1
  refine ⟨s1, hclick, ?_⟩
  subst hs1
  exact ⟨rfl, rfl, hin, hiff⟩

set_option maxRecDepth 1000000 in
theorem detector_result_after_move_witness :
    ∃ s1, handleSquareClick backRankReady 0 0 = some s1 ∧
      s1.board = movedBoard backRankBoard ⟨7, 0⟩ 0 0 ⟨Kind.rook, Color.white, some false⟩ ∧
      s1.currentPlayer = opposite Color.white ∧
      s1.isCheck = isSquareUnderAttack 0 4 (opposite s1.currentPlayer) s1.board ∧
      (s1.isCheckmate = true ↔ s1.isCheck = true ∧
        ∀ r c p, s1.board.get r c = some p → p.color = s1.currentPlayer →
          getValidMovesForPiece r c s1.board true = some []) :=
  detector_result_after_move.1 backRankReady ⟨7, 0⟩ ⟨Kind.rook, Color.white, some false⟩
    0 0 ⟨0, 4⟩ rfl rfl (by decide) (by decide) (by decide)

/-! ## Exact membership in the generated lists -/

theorem mem_getPawnMoves (b : Board) (p : Piece) (row col : Int) (m : Square)
    (hrc : onBoard row col) :
    m ∈ getPawnMoves row col p b ↔
      (m = ⟨row + (if p.color = Color.white then -1 else 1), col⟩ ∧
        onBoard (row + (if p.color = Color.white then -1 else 1)) col ∧
        b.get (row + (if p.color = Color.white then -1 else 1)) col = none) ∨
      (m = ⟨row + 2 * (if p.color = Color.white then -1 else 1), col⟩ ∧
        row = (if p.color = Color.white then 6 else 1) ∧
        b.get (row + (if p.color = Color.white then -1 else 1)) col = none ∧
        b.get (row + 2 * (if p.color = Color.white then -1 else 1)) col = none) ∨
      (∃ offset : Int, (offset = -1 ∨ offset = 1) ∧
        m = ⟨row + (if p.color = Color.white then -1 else 1), col + offset⟩ ∧
        onBoard (row + (if p.color = Color.white then -1 else 1)) (col + offset) ∧
        ∃ target, b.get (row + (if p.color = Color.white then -1 else 1)) (col + offset)
          = some target ∧ target.color ≠ p.color) := by
  obtain ⟨hr0, hr8, hc0, hc8⟩ := hrc
  unfold getPawnMoves onBoard
  by_cases hw : p.color = Color.white
  · simp only [hw, if_true, List.mem_append, List.mem_flatMap, List.mem_cons,
      List.mem_singleton, List.not_mem_nil, or_false]
    constructor
    · rintro (hm | ⟨offset, hoff, hm⟩)
      · split at hm
        · rename_i hf
          obtain ⟨hf0, hf8, hfe⟩ := hf
          simp only [Option.isNone_iff_eq_none] at hfe
          simp only [List.mem_cons] at hm
          rcases hm with hm | hm
          · exact Or.inl ⟨hm, ⟨hf0, hf8, hc0, hc8⟩, hfe⟩
          · split at hm
            · rename_i hd
              simp only [Option.isNone_iff_eq_none] at hd
              simp only [List.mem_singleton] at hm
              exact Or.inr (Or.inl ⟨hm, hd.1, hfe, hd.2⟩)
            · simp at hm
        · simp at hm
      · split at hm
        · rename_i hb
          obtain ⟨hn0, hn8, hf0, hf8⟩ := hb
          split at hm
          · rename_i target ht
            split at hm
            · rename_i hcol
              simp only [List.mem_singleton] at hm
              exact Or.inr (Or.inr ⟨offset, hoff, hm, ⟨hf0, hf8, hn0, hn8⟩, target, ht,
                hcol⟩)
            · simp at hm
          · simp at hm
        · simp at hm
    · rintro (⟨rfl, ⟨h0, h8, -, -⟩, he⟩ | ⟨rfl, hs, he1, he2⟩ |
        ⟨offset, hoff, rfl, ⟨h0, h8, hn0, hn8⟩, target, ht, hcol⟩)
      · left
        simp [h0, h8, he]
      · left
        subst hs
        simp only [Int.reduceNeg, Int.reduceAdd, Int.reduceMul] at he1 he2
        simp [he1, he2]
      · right
        refine ⟨offset, hoff, ?_⟩
        simp [h0, h8, hn0, hn8, ht, hcol]
  · simp only [hw, if_false, List.mem_append, List.mem_flatMap, List.mem_cons,
      List.mem_singleton, List.not_mem_nil, or_false]
    constructor
    · rintro (hm | ⟨offset, hoff, hm⟩)
      · split at hm
        · rename_i hf
          obtain ⟨hf0, hf8, hfe⟩ := hf
          simp only [Option.isNone_iff_eq_none] at hfe
          simp only [List.mem_cons] at hm
          rcases hm with hm | hm
          · exact Or.inl ⟨hm, ⟨hf0, hf8, hc0, hc8⟩, hfe⟩
          · split at hm
            · rename_i hd
              simp only [Option.isNone_iff_eq_none] at hd
              simp only [List.mem_singleton] at hm
              exact Or.inr (Or.inl ⟨hm, hd.1, hfe, hd.2⟩)
            · simp at hm
        · simp at hm
      · split at hm
        · rename_i hb
          obtain ⟨hn0, hn8, hf0, hf8⟩ := hb
          split at hm
          · rename_i target ht
            split at hm
            · rename_i hcol
              simp only [List.mem_singleton] at hm
              exact Or.inr (Or.inr ⟨offset, hoff, hm, ⟨hf0, hf8, hn0, hn8⟩, target, ht,
                hcol⟩)
            · simp at hm
          · simp at hm
        · simp at hm
    · rintro (⟨rfl, ⟨h0, h8, -, -⟩, he⟩ | ⟨rfl, hs, he1, he2⟩ |
        ⟨offset, hoff, rfl, ⟨h0, h8, hn0, hn8⟩, target, ht, hcol⟩)
      · left
        simp [h0, h8, he]
      · left
        subst hs
        simp only [Int.reduceNeg, Int.reduceAdd, Int.reduceMul] at he1 he2
        simp [he1, he2]
      · right
        refine ⟨offset, hoff, ?_⟩
        simp [h0, h8, hn0, hn8, ht, hcol]

theorem mem_slide (b : Board) (p : Piece) (dr dc : Int) :
    ∀ (fuel : Nat) (r c : Int) (m : Square), m ∈ slide b p dr dc fuel r c ↔
      ∃ k : Nat, k < fuel ∧ m = ⟨r + k * dr, c + k * dc⟩ ∧
        (∀ i : Nat, i < k → onBoard (r + i * dr) (c + i * dc) ∧
          b.get (r + i * dr) (c + i * dc) = none) ∧
        onBoard m.row m.col ∧ ∀ t, b.get m.row m.col = some t → t.color ≠ p.color := by
  intro fuel
  induction fuel with
  | zero =>
    intro r c m
    simp [slide]
  | succ n ih =>
    intro r c m
    constructor
    · intro hm
      unfold slide at hm
      split at hm
      · rename_i hb
        split at hm
        · rename_i target ht
          split at hm
          · rename_i hcol
            simp only [List.mem_singleton] at hm
            subst hm
            refine ⟨0, by omega, by simp, ?_, hb, ?_⟩
            · intro i hi; omega
            · intro t h
              simp only at h
              rw [ht] at h
              cases h
              exact hcol
          · simp at hm
        · rename_i ht
          simp only [List.mem_cons] at hm
          rcases hm with hm | hm
          · subst hm
            refine ⟨0, by omega, by simp, ?_, hb, ?_⟩
            · intro i hi; omega
            · intro t h
              simp only at h
              rw [ht] at h
              cases h
          · obtain ⟨k, hk, h1, h2, h3, h4⟩ := (ih _ _ m).mp hm
            refine ⟨k + 1, by omega, ?_, ?_, h3, h4⟩
            · rw [h1]
              congr 1 <;> (push_cast; ring)
            · intro i hi
              cases i with
              | zero =>
                simp only [Nat.cast_zero, zero_mul, add_zero]
                exact ⟨hb, ht⟩
              | succ j =>
                have := h2 j (by omega)
                have e1 : r + ((j + 1 : Nat) : Int) * dr = r + dr + j * dr := by
                  push_cast; ring
                have e2 : c + ((j + 1 : Nat) : Int) * dc = c + dc + j * dc := by
                  push_cast; ring
                rw [e1, e2]
                exact this
      · simp at hm
    · rintro ⟨k, hk, hm, hpath, hmb, hdest⟩
      unfold slide
      cases k with
      | zero =>
        simp only [Nat.cast_zero, zero_mul, add_zero] at hm
        subst hm
        simp only at hmb hdest
        unfold onBoard at hmb
        rw [if_pos hmb]
        cases ht : b.get r c with
        | none => simp
        | some t => simp [hdest t ht]
      | succ j =>
        obtain ⟨hb0, he0⟩ := hpath 0 (by omega)
        simp only [Nat.cast_zero, zero_mul, add_zero] at hb0 he0
        unfold onBoard at hb0
        rw [if_pos hb0]
        simp only [he0]
        apply List.mem_cons_of_mem
        rw [ih]
        refine ⟨j, by omega, ?_, ?_, hmb, hdest⟩
        · rw [hm]
          congr 1 <;> (push_cast; ring)
        · intro i hi
          have := hpath (i + 1) (by omega)
          have e1 : r + ((i + 1 : Nat) : Int) * dr = r + dr + i * dr := by
            push_cast; ring
          have e2 : c + ((i + 1 : Nat) : Int) * dc = c + dc + i * dc := by
            push_cast; ring
          rw [e1, e2] at this
          exact this

theorem mem_slide_dir (b : Board) (p : Piece) (row col dr dc : Int) (m : Square)
    (hrc : onBoard row col) (hdr : dr = -1 ∨ dr = 0 ∨ dr = 1)
    (hdc : dc = -1 ∨ dc = 0 ∨ dc = 1) (hd : dr ≠ 0 ∨ dc ≠ 0) :
    m ∈ slide b p dr dc 8 (row + dr) (col + dc) ↔
      onBoard m.row m.col ∧ (m.row - row).sign = dr ∧ (m.col - col).sign = dc ∧
        (dr = 0 ∨ dc = 0 ∨ (m.row - row).natAbs = (m.col - col).natAbs) ∧
        pathClear b row col m.row m.col ∧
        ∀ t, b.get m.row m.col = some t → t.color ≠ p.color := by
  obtain ⟨hr0, hr8, hc0, hc8⟩ := hrc
  rw [mem_slide]
  constructor
  · rintro ⟨k, hk, hm, hpath, hmb, hdest⟩
    have hr : m.row = row + (k + 1) * dr := by rw [hm]; ring
    have hc : m.col = col + (k + 1) * dc := by rw [hm]; ring
    have hsr : (m.row - row).sign = dr := by
      rcases hdr with rfl | rfl | rfl
      · exact Int.sign_eq_neg_one_iff_neg.mpr (by omega)
      · exact Int.sign_eq_zero_iff_zero.mpr (by omega)
      · exact Int.sign_eq_one_iff_pos.mpr (by omega)
    have hsc : (m.col - col).sign = dc := by
      rcases hdc with rfl | rfl | rfl
      · exact Int.sign_eq_neg_one_iff_neg.mpr (by omega)
      · exact Int.sign_eq_zero_iff_zero.mpr (by omega)
      · exact Int.sign_eq_one_iff_pos.mpr (by omega)
    have hmax : max (m.row - row).natAbs (m.col - col).natAbs = k + 1 := by
      rcases hdr with rfl | rfl | rfl <;> rcases hdc with rfl | rfl | rfl <;>
        first
          | exact absurd rfl (hd.elim id id)
          | omega
    refine ⟨hmb, hsr, hsc, ?_, ?_, hdest⟩
    · rcases hdr with rfl | rfl | rfl <;> rcases hdc with rfl | rfl | rfl <;> omega
    · intro i hi0 hi
      rw [hsr, hsc]
      have hj : ((i.toNat - 1 : Nat) : Int) = i - 1 := by omega
      have := (hpath (i.toNat - 1) (by omega)).2
      rw [hj] at this
      have e1 : row + dr + (i - 1) * dr = row + i * dr := by ring
      have e2 : col + dc + (i - 1) * dc = col + i * dc := by ring
      rw [e1, e2] at this
      exact this
  · rintro ⟨hmb, hsr, hsc, hdiag, hpath, hdest⟩
    obtain ⟨hm0, hm8, hn0, hn8⟩ := hmb
    have hmax : ∃ n : Nat, 0 < n ∧ n < 8 ∧ max (m.row - row).natAbs (m.col - col).natAbs = n ∧
        m.row = row + n * dr ∧ m.col = col + n * dc := by
      refine ⟨max (m.row - row).natAbs (m.col - col).natAbs, ?_, ?_, rfl, ?_, ?_⟩ <;>
      rcases hdr with rfl | rfl | rfl <;> rcases hdc with rfl | rfl | rfl <;>
        simp only [Int.sign_eq_neg_one_iff_neg, Int.sign_eq_zero_iff_zero,
          Int.sign_eq_one_iff_pos] at hsr hsc <;>
        first
          | exact absurd rfl (hd.elim id id)
          | omega
    obtain ⟨n, hn0', hn8', hnmax, hr, hc⟩ := hmax
    refine ⟨n - 1, by omega, ?_, ?_, ⟨hm0, hm8, hn0, hn8⟩, hdest⟩
    · have hj : ((n - 1 : Nat) : Int) = n - 1 := by omega
      cases m with
      | mk mr mc =>
        simp only at hr hc
        rw [hr, hc, hj]
        congr 1 <;> ring
    · intro i hi
      have hclear := hpath (i + 1) (by omega) (by omega)
      rw [hsr, hsc] at hclear
      have e1 : row + dr + (i : Int) * dr = row + (i + 1) * dr := by ring
      have e2 : col + dc + (i : Int) * dc = col + (i + 1) * dc := by ring
      rw [e1, e2]
      refine ⟨?_, hclear⟩
      unfold onBoard
      rcases hdr with rfl | rfl | rfl <;> rcases hdc with rfl | rfl | rfl <;> omega

theorem sign_cases (x : Int) :
    (x < 0 ∧ x.sign = -1) ∨ (x = 0 ∧ x.sign = 0) ∨ (0 < x ∧ x.sign = 1) := by
  rcases lt_trichotomy x 0 with h | h | h
  · exact Or.inl ⟨h, Int.sign_eq_neg_one_iff_neg.mpr h⟩
  · exact Or.inr (Or.inl ⟨h, Int.sign_eq_zero_iff_zero.mpr h⟩)
  · exact Or.inr (Or.inr ⟨h, Int.sign_eq_one_iff_pos.mpr h⟩)

theorem empty_or_enemy_iff (b : Board) (r c : Int) (color : Color) :
    (∀ t, b.get r c = some t → t.color ≠ color) ↔
      (b.get r c = none ∨ ∃ t, b.get r c = some t ∧ t.color = opposite color) := by
  cases h : b.get r c with
  | none => simp
  | some t =>
    simp only [Option.some.injEq, forall_eq', false_or, exists_eq_left', reduceCtorEq]
    exact ne_opposite_iff t.color color

theorem mem_getRookMoves (b : Board) (p : Piece) (row col r c : Int) (hrc : onBoard row col) :
    (⟨r, c⟩ : Square) ∈ getRookMoves row col p b ↔
      onBoard r c ∧ (r ≠ row ∨ c ≠ col) ∧ (r = row ∨ c = col) ∧ pathClear b row col r c ∧
        (b.get r c = none ∨ ∃ t, b.get r c = some t ∧ t.color = opposite p.color) := by
  rw [← empty_or_enemy_iff]
  unfold getRookMoves
  simp only [List.mem_flatMap, List.mem_cons, List.mem_singleton, List.not_mem_nil, or_false]
  constructor
  · rintro ⟨d, hd, hm⟩
    rcases hd with rfl | rfl | rfl | rfl
    all_goals
      rw [mem_slide_dir b p row col _ _ ⟨r, c⟩ hrc (by decide) (by decide) (by decide)] at hm
      obtain ⟨hmb, hsr, hsc, -, hpath, hdest⟩ := hm
      simp only [Int.sign_eq_neg_one_iff_neg, Int.sign_eq_zero_iff_zero,
        Int.sign_eq_one_iff_pos] at hsr hsc
      exact ⟨hmb, by omega, by omega, hpath, hdest⟩
  · rintro ⟨hmb, hne, hline, hpath, hdest⟩
    refine ⟨((r - row).sign, (c - col).sign), ?_, ?_⟩
    · rcases sign_cases (r - row) with ⟨h1, s1⟩ | ⟨h1, s1⟩ | ⟨h1, s1⟩ <;>
        rcases sign_cases (c - col) with ⟨h2, s2⟩ | ⟨h2, s2⟩ | ⟨h2, s2⟩ <;>
        first
          | (exfalso; omega)
          | (rw [s1, s2]; decide)
    · refine (mem_slide_dir b p row col _ _ ⟨r, c⟩ hrc ?_ ?_ ?_).mpr
        ⟨hmb, rfl, rfl, ?_, hpath, hdest⟩
      all_goals
        rcases sign_cases (r - row) with ⟨h1, s1⟩ | ⟨h1, s1⟩ | ⟨h1, s1⟩ <;>
          rcases sign_cases (c - col) with ⟨h2, s2⟩ | ⟨h2, s2⟩ | ⟨h2, s2⟩ <;>
          first
            | (exfalso; omega)
            | (rw [s1, s2]; decide)
            | (simp only [s1, s2]; omega)
            | simp [s1, s2]

theorem mem_getBishopMoves (b : Board) (p : Piece) (row col r c : Int)
    (hrc : onBoard row col) :
    (⟨r, c⟩ : Square) ∈ getBishopMoves row col p b ↔
      onBoard r c ∧ (r ≠ row ∨ c ≠ col) ∧ (r - row).natAbs = (c - col).natAbs ∧
        pathClear b row col r c ∧
        (b.get r c = none ∨ ∃ t, b.get r c = some t ∧ t.color = opposite p.color) := by
  rw [← empty_or_enemy_iff]
  unfold getBishopMoves
  simp only [List.mem_flatMap, List.mem_cons, List.mem_singleton, List.not_mem_nil, or_false]
  constructor
  · rintro ⟨d, hd, hm⟩
    rcases hd with rfl | rfl | rfl | rfl
    all_goals
      rw [mem_slide_dir b p row col _ _ ⟨r, c⟩ hrc (by decide) (by decide) (by decide)] at hm
      obtain ⟨hmb, hsr, hsc, hdiag, hpath, hdest⟩ := hm
      simp only [Int.sign_eq_neg_one_iff_neg, Int.sign_eq_zero_iff_zero,
        Int.sign_eq_one_iff_pos] at hsr hsc
      have hdiag1 : (r - row).natAbs = (c - col).natAbs := by
        rcases hdiag with h | h | h
        · exact absurd h (by decide)
        · exact absurd h (by decide)
        · exact h
      exact ⟨hmb, by omega, hdiag1, hpath, hdest⟩
  · rintro ⟨hmb, hne, hline, hpath, hdest⟩
    refine ⟨((r - row).sign, (c - col).sign), ?_, ?_⟩
    · rcases sign_cases (r - row) with ⟨h1, s1⟩ | ⟨h1, s1⟩ | ⟨h1, s1⟩ <;>
        rcases sign_cases (c - col) with ⟨h2, s2⟩ | ⟨h2, s2⟩ | ⟨h2, s2⟩ <;>
        first
          | (exfalso; omega)
          | (rw [s1, s2]; decide)
    · refine (mem_slide_dir b p row col _ _ ⟨r, c⟩ hrc ?_ ?_ ?_).mpr
        ⟨hmb, rfl, rfl, ?_, hpath, hdest⟩
      all_goals
        rcases sign_cases (r - row) with ⟨h1, s1⟩ | ⟨h1, s1⟩ | ⟨h1, s1⟩ <;>
          rcases sign_cases (c - col) with ⟨h2, s2⟩ | ⟨h2, s2⟩ | ⟨h2, s2⟩ <;>
          first
            | (exfalso; omega)
            | (rw [s1, s2]; decide)
            | (simp only [s1, s2]; omega)

/-! ## The outcomes of a click, and invariants of reachable states -/

/-- Every way in which `handleSquareClick` returns. -/
theorem handleSquareClick_cases {s s1 : GameState} {row col : Int}
    (hclick : handleSquareClick s row col = some s1) :
    (s.isCheckmate = true ∧ s1 = s) ∨
    (∃ sel piece inCheck mate,
      s.isCheckmate = false ∧ s.selectedSquare = some sel ∧
      (⟨row, col⟩ : Square) ∈ s.validMoves ∧
      s.board.get sel.row sel.col = some piece ∧
      checkForCheckAndCheckmate (movedBoard s.board sel row col piece)
        (opposite s.currentPlayer) = some (inCheck, mate) ∧
      s1 = { board := movedBoard s.board sel row col piece
             selectedSquare := none
             currentPlayer := opposite s.currentPlayer
             validMoves := []
             capturedPieces :=
               match s.board.get row col with
               | some cp => s.capturedPieces.append s.currentPlayer cp
               | none => s.capturedPieces
             isCheck := inCheck
             isCheckmate := mate
             moveHistory := s.moveHistory ++
               [⟨sel, ⟨row, col⟩, piece.type, (s.board.get row col).map (·.type)⟩]
             activeTimer := opposite s.currentPlayer }) ∨
    (∃ sel, s.isCheckmate = false ∧ s.selectedSquare = some sel ∧
      (⟨row, col⟩ : Square) ∉ s.validMoves ∧
      s1 = { s with selectedSquare := none, validMoves := [] }) ∨
    (∃ piece moves, s.isCheckmate = false ∧ s.selectedSquare = none ∧
      s.board.get row col = some piece ∧ piece.color = s.currentPlayer ∧
      getValidMovesForPiece row col s.board true = some moves ∧
      s1 = { s with selectedSquare := some ⟨row, col⟩, validMoves := moves }) ∨
    (s.isCheckmate = false ∧ s.selectedSquare = none ∧
      (∀ piece, s.board.get row col = some piece → piece.color ≠ s.currentPlayer) ∧
      s1 = s) := by
  rcases Bool.eq_false_or_eq_true s.isCheckmate with hm | hm
  · rw [handleSquareClick_mate s _ _ hm] at hclick
    cases hclick
    exact Or.inl ⟨hm, rfl⟩
  · right
    rcases Option.eq_none_or_eq_some s.selectedSquare with hsel | ⟨sel, hsel⟩
    · right; right
      rcases Option.eq_none_or_eq_some (s.board.get row col) with hg | ⟨piece, hg⟩
      · have hother : ∀ piece, s.board.get row col = some piece →
            piece.color ≠ s.currentPlayer := fun p hp => by rw [hg] at hp; cases hp
        rw [handleSquareClick_idle_other hm hsel hother] at hclick
        cases hclick
        exact Or.inr ⟨hm, hsel, hother, rfl⟩
      · by_cases hc : piece.color = s.currentPlayer
        · rw [handleSquareClick_idle_own hm hsel hg hc] at hclick
          rcases Option.eq_none_or_eq_some (getValidMovesForPiece row col s.board true)
            with hv | ⟨moves, hv⟩
          · simp [hv] at hclick
          · simp only [hv, Option.map_some', Option.some.injEq] at hclick
            exact Or.inl ⟨piece, moves, hm, hsel, hg, hc, hv, hclick.symm⟩
        · have hother : ∀ q, s.board.get row col = some q → q.color ≠ s.currentPlayer :=
            fun q hq => by rw [hg] at hq; cases hq; exact hc
          rw [handleSquareClick_idle_other hm hsel hother] at hclick
          cases hclick
          exact Or.inr ⟨hm, hsel, hother, rfl⟩
    · by_cases hto : (⟨row, col⟩ : Square) ∈ s.validMoves
      · obtain ⟨piece, inCheck, mate, hp, hc, hs1⟩ := handleSquareClick_move hm hsel hto hclick
        exact Or.inl ⟨sel, piece, inCheck, mate, hm, hsel, hto, hp, hc, hs1⟩
      · rw [handleSquareClick_deselect hm hsel hto] at hclick
        cases hclick
        exact Or.inr (Or.inl ⟨sel, hm, hsel, hto, rfl⟩)

/-- A property that holds initially and is kept by every step holds in every
reachable state. -/
theorem reachable_induction (P : GameState → Prop) (h0 : P initialState)
    (hstep : ∀ s e s1, P s → step s e = some s1 → P s1) :
    ∀ s, Reachable s → P s := by
  have hrun : ∀ (es : List Event) (s s1 : GameState), P s → run s es = some s1 → P s1 := by
    intro es
    induction es with
    | nil =>
      intro s s1 hP h
      simp only [run, Option.some.injEq] at h
      subst h
      exact hP
    | cons e t ih =>
      intro s s1 hP h
      unfold run at h
      cases hs : step s e with
      | none => simp [hs] at h
      | some s2 =>
        simp only [hs] at h
        exact ih s2 s1 (hstep s e s2 hP hs) h
  rintro s ⟨es, hes⟩
  exact hrun es initialState s h0 hes

/-- In a reachable state the valid moves are those of the selected square on
the current board, and there are none without a selection. -/
theorem validMoves_fresh (s : GameState) (hreach : Reachable s) :
    (∀ sel, s.selectedSquare = some sel →
        getValidMovesForPiece sel.row sel.col s.board true = some s.validMoves) ∧
      (s.selectedSquare = none → s.validMoves = []) := by
  refine reachable_induction
    (fun s => (∀ sel, s.selectedSquare = some sel →
        getValidMovesForPiece sel.row sel.col s.board true = some s.validMoves) ∧
      (s.selectedSquare = none → s.validMoves = [])) ?_ ?_ s hreach
  · exact ⟨fun sel h => (by cases h), fun _ => rfl⟩
  · intro s e s1 hP hstep
    cases e with
    | reset =>
      simp only [step, resetGame, Option.some.injEq] at hstep
      subst hstep
      exact ⟨fun sel h => (by cases h), fun _ => rfl⟩
    | click row col =>
      simp only [step] at hstep
      rcases handleSquareClick_cases hstep with ⟨-, rfl⟩ |
        ⟨sel, piece, inCheck, mate, -, -, -, -, -, rfl⟩ | ⟨sel, -, -, -, rfl⟩ |
        ⟨piece, moves, -, -, -, -, hv, rfl⟩ | ⟨-, -, -, rfl⟩
      · exact hP
      · exact ⟨fun sel h => (by cases h), fun _ => rfl⟩
      · exact ⟨fun sel h => (by cases h), fun _ => rfl⟩
      · refine ⟨fun sel h => ?_, fun h => by cases h⟩
        simp only [Option.some.injEq] at h
        subst h
        exact hv
      · exact hP

/-- In a reachable state the selected square holds a piece of the player to move. -/
theorem selected_piece_of_current_player (s : GameState) (hreach : Reachable s) :
    ∀ sel, s.selectedSquare = some sel →
      ∃ piece, s.board.get sel.row sel.col = some piece ∧ piece.color = s.currentPlayer := by
  refine reachable_induction
    (fun s => ∀ sel, s.selectedSquare = some sel →
      ∃ piece, s.board.get sel.row sel.col = some piece ∧ piece.color = s.currentPlayer)
    ?_ ?_ s hreach
  · intro sel h
    cases h
  · intro s e s1 hP hstep
    cases e with
    | reset =>
      simp only [step, resetGame, Option.some.injEq] at hstep
      subst hstep
      intro sel h
      cases h
    | click row col =>
      simp only [step] at hstep
      rcases handleSquareClick_cases hstep with ⟨-, rfl⟩ |
        ⟨sel, piece, inCheck, mate, -, -, -, -, -, rfl⟩ | ⟨sel, -, -, -, rfl⟩ |
        ⟨piece, moves, -, -, hg, hc, -, rfl⟩ | ⟨-, -, -, rfl⟩
      · exact hP
      · intro sel h; cases h
      · intro sel h; cases h
      · intro sel h
        simp only [Option.some.injEq] at h
        subst h
        exact ⟨piece, hg, hc⟩
      · exact hP

/-! ## Claims C12 to C16 -/

/-- With the square in front of a pawn occupied, every generated destination
of the pawn lies on another column. -/
theorem blocked_pawn_moves_off_column {b : Board} {row col : Int} {pawn blocker : Piece}
    {m : Square} (hrc : onBoard row col)
    (hblock : b.get (row + (if pawn.color = Color.white then -1 else 1)) col = some blocker)
    (hm : m ∈ getPawnMoves row col pawn b) : m.col ≠ col := by
  rcases (mem_getPawnMoves b pawn row col m hrc).mp hm with
    ⟨-, -, he⟩ | ⟨-, -, he, -⟩ | ⟨offset, hoff, rfl, -, -⟩
  · rw [hblock] at he; cases he
  · rw [hblock] at he; cases he
  · simp only
    omega

set_option maxRecDepth 1000000 in
/-- C12: on the initial board the pawn on (6,4) has exactly the legal
destinations (5,4) and (4,4); with any piece placed on (5,4) the call still
returns and neither square is a destination; and for every board and pawn whose
square one step forward is occupied, neither the single-step nor the
double-step square is among the pawn's destinations, filtered or not. -/
theorem blocked_pawn_has_no_forward_move :
    getValidMovesForPiece 6 4 initializeBoard true = some [⟨5, 4⟩, ⟨4, 4⟩] ∧
    (∀ X : Piece, ∃ moves,
      getValidMovesForPiece 6 4 (Board.set initializeBoard 5 4 (some X)) true = some moves ∧
      (⟨5, 4⟩ : Square) ∉ moves ∧ (⟨4, 4⟩ : Square) ∉ moves) ∧
    (∀ (b : Board) (row col : Int) (pawn blocker : Piece) (checkForCheck : Bool)
      (moves : List Square),
      b.get row col = some pawn → pawn.type = Kind.pawn →
      b.get (row + (if pawn.color = Color.white then -1 else 1)) col = some blocker →
      getValidMovesForPiece row col b checkForCheck = some moves →
      (⟨row + (if pawn.color = Color.white then -1 else 1), col⟩ : Square) ∉ moves ∧
      (⟨row + 2 * (if pawn.color = Color.white then -1 else 1), col⟩ : Square) ∉ moves) := by
  have general : ∀ (b : Board) (row col : Int) (pawn blocker : Piece) (checkForCheck : Bool)
      (moves : List Square),
      b.get row col = some pawn → pawn.type = Kind.pawn →
      b.get (row + (if pawn.color = Color.white then -1 else 1)) col = some blocker →
      getValidMovesForPiece row col b checkForCheck = some moves →
      ∀ m ∈ moves, m.col ≠ col := by
    intro b row col pawn blocker checkForCheck moves hp hpawn hblock hmoves m hm
    have hrc : onBoard row col := onBoard_of_get_some hp
    have hgen : m ∈ getPawnMoves row col pawn b := by
      have hpm : pieceMoves row col pawn b = getPawnMoves row col pawn b := by
        unfold pieceMoves
        simp only [hpawn]
      rw [← hpm]
      cases checkForCheck with
      | true => exact ((mem_legal hp hmoves).mp hm).1
      | false =>
        rw [getValidMovesForPiece_false, pseudoLegalMoves_of_piece hp] at hmoves
        cases hmoves
        exact hm
    exact blocked_pawn_moves_off_column hrc hblock hgen
  refine ⟨by decide, ?_, ?_⟩
  · intro X
    have hp : (Board.set initializeBoard 5 4 (some X)).get 6 4 =
        some ⟨Kind.pawn, Color.white, some false⟩ := by
      rw [get_set_other _ _ _ _ _ _ (Or.inl (by decide))]
      decide
    have hkg : (Board.set initializeBoard 5 4 (some X)).get 7 4 =
        some ⟨Kind.king, Color.white, some false⟩ := by
      rw [get_set_other _ _ _ _ _ _ (Or.inl (by decide))]
      decide
    obtain ⟨k0, hk0⟩ := @findKing_isSome_of_king _ Color.white _ _ _ hkg rfl rfl
    obtain ⟨moves, hmoves⟩ := getValidMovesForPiece_total hp hk0
    have hblock : (Board.set initializeBoard 5 4 (some X)).get
        (6 + (if (⟨Kind.pawn, Color.white, some false⟩ : Piece).color = Color.white
          then -1 else 1)) 4 = some X :=
      get_set_same _ 5 4 _ (by decide)
    have hoff := general _ 6 4 _ X true moves hp rfl hblock hmoves
    exact ⟨moves, hmoves, fun h => hoff _ h rfl, fun h => hoff _ h rfl⟩
  · intro b row col pawn blocker checkForCheck moves hp hpawn hblock hmoves
    have hoff := general b row col pawn blocker checkForCheck moves hp hpawn hblock hmoves
    exact ⟨fun h => hoff _ h rfl, fun h => hoff _ h rfl⟩

set_option maxRecDepth 1000000 in
theorem blocked_pawn_has_no_forward_move_witness :
    (⟨4 + (if (⟨Kind.pawn, Color.white, some true⟩ : Piece).color = Color.white
        then -1 else 1), 4⟩ : Square) ∉ ([] : List Square) ∧
      (⟨4 + 2 * (if (⟨Kind.pawn, Color.white, some true⟩ : Piece).color = Color.white
        then -1 else 1), 4⟩ : Square) ∉ ([] : List Square) :=
  blocked_pawn_has_no_forward_move.2.2
    (movedBoard (movedBoard initializeBoard ⟨6, 4⟩ 4 4 ⟨Kind.pawn, Color.white, some false⟩)
      ⟨1, 4⟩ 3 4 ⟨Kind.pawn, Color.black, some false⟩)
    4 4 ⟨Kind.pawn, Color.white, some true⟩ ⟨Kind.pawn, Color.black, some true⟩ true []
    (by decide) rfl (by decide) (by decide)

set_option maxRecDepth 1000000 in
/-- C13: a click that does not apply a move changes at most the selection.  A
click in Idle on an empty square or on an opponent's piece returns the state
unchanged; a click in Selected on a square outside `validMoves` returns and
leaves the board, `currentPlayer`, `capturedPieces`, `moveHistory`, `isCheck` and
`isCheckmate` unchanged; and so does every click that returns without applying a
move. -/
theorem non_move_click_changes_only_selection :
    (∀ (s : GameState) (row col : Int),
      s.isCheckmate = false → s.selectedSquare = none →
      (s.board.get row col = none ∨
        ∃ piece, s.board.get row col = some piece ∧ piece.color = opposite s.currentPlayer) →
      handleSquareClick s row col = some s) ∧
    (∀ (s : GameState) (sel : Square) (row col : Int),
      s.isCheckmate = false → s.selectedSquare = some sel →
      (⟨row, col⟩ : Square) ∉ s.validMoves →
      ∃ s1, handleSquareClick s row col = some s1 ∧
        s1.board = s.board ∧ s1.currentPlayer = s.currentPlayer ∧
        s1.capturedPieces = s.capturedPieces ∧ s1.moveHistory = s.moveHistory ∧
        s1.isCheck = s.isCheck ∧ s1.isCheckmate = s.isCheckmate) ∧
    (∀ (s s1 : GameState) (row col : Int),
      handleSquareClick s row col = some s1 →
      ¬ (s.isCheckmate = false ∧ s.selectedSquare ≠ none ∧
          (⟨row, col⟩ : Square) ∈ s.validMoves) →
      s1.board = s.board ∧ s1.currentPlayer = s.currentPlayer ∧
        s1.capturedPieces = s.capturedPieces ∧ s1.moveHistory = s.moveHistory ∧
        s1.isCheck = s.isCheck ∧ s1.isCheckmate = s.isCheckmate) := by
  refine ⟨?_, ?_, ?_⟩
  · intro s row col hm hsel hsq
    apply handleSquareClick_idle_other hm hsel
    intro piece hp
    rcases hsq with hnone | ⟨q, hq, hqc⟩
    · rw [hnone] at hp; cases hp
    · rw [hq] at hp
      cases hp
      rw [hqc]
      exact opposite_ne s.currentPlayer
  · intro s sel row col hm hsel hto
    exact ⟨_, handleSquareClick_deselect hm hsel hto, rfl, rfl, rfl, rfl, rfl, rfl⟩
  · intro s s1 row col hclick hnot
    rcases handleSquareClick_cases hclick with ⟨-, rfl⟩ |
      ⟨sel, piece, inCheck, mate, hm, hsel, hto, -, -, -⟩ | ⟨sel, -, -, -, rfl⟩ |
      ⟨piece, moves, -, -, -, -, -, rfl⟩ | ⟨-, -, -, rfl⟩
    · exact ⟨rfl, rfl, rfl, rfl, rfl, rfl⟩
    · exact absurd ⟨hm, by rw [hsel]; exact Option.noConfusion, hto⟩ hnot
    · exact ⟨rfl, rfl, rfl, rfl, rfl, rfl⟩
    · exact ⟨rfl, rfl, rfl, rfl, rfl, rfl⟩
    · exact ⟨rfl, rfl, rfl, rfl, rfl, rfl⟩

theorem non_move_click_changes_only_selection_witness :
    ∃ s1, handleSquareClick selectedE2 6 3 = some s1 ∧
      s1.board = selectedE2.board ∧ s1.currentPlayer = selectedE2.currentPlayer ∧
      s1.capturedPieces = selectedE2.capturedPieces ∧
      s1.moveHistory = selectedE2.moveHistory ∧
      s1.isCheck = selectedE2.isCheck ∧ s1.isCheckmate = selectedE2.isCheckmate :=
  non_move_click_changes_only_selection.2.1 selectedE2 ⟨6, 4⟩ 6 3 rfl rfl (by decide)

/-- C14: in every state reachable from the initial state by clicks (and
resets), a present `selectedSquare` comes with
`validMoves = getValidMovesForPiece(selectedSquare, board, true)` on the current
board, an absent one with empty `validMoves`; and every applied move leaves no
selection and empty `validMoves`. -/
theorem valid_moves_belong_to_current_selection (s : GameState) (hreach : Reachable s) :
    (∀ sel, s.selectedSquare = some sel →
        getValidMovesForPiece sel.row sel.col s.board true = some s.validMoves) ∧
      (s.selectedSquare = none → s.validMoves = []) ∧
      (∀ (row col : Int) (s1 : GameState),
        s.isCheckmate = false → s.selectedSquare ≠ none →
        (⟨row, col⟩ : Square) ∈ s.validMoves →
        handleSquareClick s row col = some s1 →
        s1.selectedSquare = none ∧ s1.validMoves = []) := by
  obtain ⟨h1, h2⟩ := validMoves_fresh s hreach
  refine ⟨h1, h2, ?_⟩
  intro row col s1 hm hsel hto hclick
  rcases Option.eq_none_or_eq_some s.selectedSquare with hnone | ⟨sel, hsome⟩
  · exact absurd hnone hsel
  · obtain ⟨_, _, _, -, -, hs1⟩ := handleSquareClick_move hm hsome hto hclick
    rw [hs1]
    exact ⟨rfl, rfl⟩

set_option maxRecDepth 1000000 in
theorem valid_moves_belong_to_current_selection_witness :
    (∀ sel, captureReady.selectedSquare = some sel →
        getValidMovesForPiece sel.row sel.col captureReady.board true =
          some captureReady.validMoves) ∧
      (captureReady.selectedSquare = none → captureReady.validMoves = []) ∧
      (∀ (row col : Int) (s1 : GameState),
        captureReady.isCheckmate = false → captureReady.selectedSquare ≠ none →
        (⟨row, col⟩ : Square) ∈ captureReady.validMoves →
        handleSquareClick captureReady row col = some s1 →
        s1.selectedSquare = none ∧ s1.validMoves = []) :=
  valid_moves_belong_to_current_selection captureReady
    ⟨[Event.click 6 4, Event.click 4 4, Event.click 1 3, Event.click 3 3, Event.click 4 4],
      by rfl⟩

/-- C15: in every state reachable from the initial state by clicks (and
resets), a present `selectedSquare` holds a piece of `currentPlayer` on the
current board; hence the piece that an applied move relocates is of the colour
whose turn it is. -/
theorem selection_holds_piece_of_current_player (s : GameState) (hreach : Reachable s) :
    (∀ sel, s.selectedSquare = some sel →
        ∃ piece, s.board.get sel.row sel.col = some piece ∧
          piece.color = s.currentPlayer) ∧
      (∀ (row col : Int) (s1 : GameState),
        s.isCheckmate = false → s.selectedSquare ≠ none →
        (⟨row, col⟩ : Square) ∈ s.validMoves →
        handleSquareClick s row col = some s1 →
        ∃ sel piece, s.selectedSquare = some sel ∧
          s.board.get sel.row sel.col = some piece ∧ piece.color = s.currentPlayer ∧
          s1.board = movedBoard s.board sel row col piece ∧
          s1.currentPlayer = opposite piece.color) := by
  have h1 := selected_piece_of_current_player s hreach
  refine ⟨h1, ?_⟩
  intro row col s1 hm hsel hto hclick
  rcases Option.eq_none_or_eq_some s.selectedSquare with hnone | ⟨sel, hsome⟩
  · exact absurd hnone hsel
  · obtain ⟨piece, _, _, hp, -, hs1⟩ := handleSquareClick_move hm hsome hto hclick
    obtain ⟨q, hq, hqc⟩ := h1 sel hsome
    rw [hp] at hq
    cases hq
    refine ⟨sel, piece, hsome, hp, hqc, ?_, ?_⟩
    · rw [hs1]
    · rw [hs1, hqc]

set_option maxRecDepth 1000000 in
theorem selection_holds_piece_of_current_player_witness :
    (∀ sel, selectedE2.selectedSquare = some sel →
        ∃ piece, selectedE2.board.get sel.row sel.col = some piece ∧
          piece.color = selectedE2.currentPlayer) ∧
      (∀ (row col : Int) (s1 : GameState),
        selectedE2.isCheckmate = false → selectedE2.selectedSquare ≠ none →
        (⟨row, col⟩ : Square) ∈ selectedE2.validMoves →
        handleSquareClick selectedE2 row col = some s1 →
        ∃ sel piece, selectedE2.selectedSquare = some sel ∧
          selectedE2.board.get sel.row sel.col = some piece ∧
          piece.color = selectedE2.currentPlayer ∧
          s1.board = movedBoard selectedE2.board sel row col piece ∧
          s1.currentPlayer = opposite piece.color) :=
  selection_holds_piece_of_current_player selectedE2 ⟨[Event.click 6 4], by rfl⟩

/-- C16: `isSquareUnderAttack(row, col, k, board)` is true exactly when some
on-board square holds a piece of colour `k` whose unfiltered destinations,
`getValidMovesForPiece(r, c, board, false)`, contain `(row, col)`. -/
theorem attacked_iff_pseudo_legal_destination (b : Board) (row col : Int) (k : Color) :
    isSquareUnderAttack row col k b = true ↔
      ∃ (r c : Int) (piece : Piece) (moves : List Square),
        onBoard r c ∧ b.get r c = some piece ∧ piece.color = k ∧
        getValidMovesForPiece r c b false = some moves ∧ (⟨row, col⟩ : Square) ∈ moves := by
  unfold isSquareUnderAttack
  rw [List.any_eq_true]
  constructor
  · rintro ⟨sq, hsq, h⟩
    have hb := (mem_allSquares sq).mp hsq
    rcases Option.eq_none_or_eq_some (b.get sq.row sq.col) with hg | ⟨piece, hg⟩
    · simp [hg] at h
    · simp only [hg, Bool.and_eq_true, decide_eq_true_eq] at h
      refine ⟨sq.row, sq.col, piece, pseudoLegalMoves sq.row sq.col b, hb, hg, h.1,
        getValidMovesForPiece_false _ _ _, ?_⟩
      exact (isValidMove_iff _ row col).mp h.2
  · rintro ⟨r, c, piece, moves, hb, hg, hk, hmoves, hmem⟩
    rw [getValidMovesForPiece_false] at hmoves
    cases hmoves
    refine ⟨⟨r, c⟩, (mem_allSquares _).mpr hb, ?_⟩
    simp only [hg, hk, decide_True, Bool.true_and]
    exact (isValidMove_iff _ row col).mpr hmem

/-! ## Claims C17 to C20 -/

/-- C17: for a rook on an on-board square `(row, col)`, a square `(r, c)` is in
`getRookMoves(row, col, piece, board)` exactly when it is on the board, differs
from `(row, col)`, lies on the same row or the same column, every square
strictly between the two is empty, and `(r, c)` is empty or holds a piece of the
other colour; the same holds for `getBishopMoves` with the same diagonal,
`|r - row| = |c - col|`, in place of the same row or column. -/
theorem rook_and_bishop_moves_exactly (b : Board) (piece : Piece) (row col r c : Int)
    (hrc : onBoard row col) :
    ((⟨r, c⟩ : Square) ∈ getRookMoves row col piece b ↔
      onBoard r c ∧ (r ≠ row ∨ c ≠ col) ∧ (r = row ∨ c = col) ∧ pathClear b row col r c ∧
        (b.get r c = none ∨ ∃ t, b.get r c = some t ∧ t.color = opposite piece.color)) ∧
    ((⟨r, c⟩ : Square) ∈ getBishopMoves row col piece b ↔
      onBoard r c ∧ (r ≠ row ∨ c ≠ col) ∧ (r - row).natAbs = (c - col).natAbs ∧
        pathClear b row col r c ∧
        (b.get r c = none ∨ ∃ t, b.get r c = some t ∧ t.color = opposite piece.color)) :=
  ⟨mem_getRookMoves b piece row col r c hrc, mem_getBishopMoves b piece row col r c hrc⟩

theorem rook_and_bishop_moves_exactly_witness :
    ((⟨0, 0⟩ : Square) ∈
        getRookMoves 7 0 ⟨Kind.rook, Color.white, some false⟩ backRankBoard ↔
      onBoard 0 0 ∧ ((0 : Int) ≠ 7 ∨ (0 : Int) ≠ 0) ∧ ((0 : Int) = 7 ∨ (0 : Int) = 0) ∧
        pathClear backRankBoard 7 0 0 0 ∧
        (backRankBoard.get 0 0 = none ∨
          ∃ t, backRankBoard.get 0 0 = some t ∧ t.color = opposite Color.white)) ∧
    ((⟨0, 0⟩ : Square) ∈
        getBishopMoves 7 0 ⟨Kind.rook, Color.white, some false⟩ backRankBoard ↔
      onBoard 0 0 ∧ ((0 : Int) ≠ 7 ∨ (0 : Int) ≠ 0) ∧
        ((0 : Int) - 7).natAbs = ((0 : Int) - 0).natAbs ∧
        pathClear backRankBoard 7 0 0 0 ∧
        (backRankBoard.get 0 0 = none ∨
          ∃ t, backRankBoard.get 0 0 = some t ∧ t.color = opposite Color.white)) :=
  rook_and_bishop_moves_exactly backRankBoard ⟨Kind.rook, Color.white, some false⟩ 7 0 0 0
    (by decide)

/-- C18: for a pawn on an on-board square, with `d = -1`, `start = 6` for white
and `d = +1`, `start = 1` for black, the destinations of `getPawnMoves` are
exactly: `(row+d, col)` when on the board and empty; `(row+2d, col)` when
`row = start` and both `(row+d, col)` and `(row+2d, col)` are empty; and
`(row+d, col-1)`, `(row+d, col+1)` when on the board and holding a piece of the
other colour.  An empty diagonal square is never a destination. -/
theorem pawn_moves_exactly (b : Board) (pawn : Piece) (row col : Int) (hrc : onBoard row col) :
    (∀ m : Square, m ∈ getPawnMoves row col pawn b ↔
      (m = ⟨row + (if pawn.color = Color.white then -1 else 1), col⟩ ∧
        onBoard (row + (if pawn.color = Color.white then -1 else 1)) col ∧
        b.get (row + (if pawn.color = Color.white then -1 else 1)) col = none) ∨
      (m = ⟨row + 2 * (if pawn.color = Color.white then -1 else 1), col⟩ ∧
        row = (if pawn.color = Color.white then 6 else 1) ∧
        b.get (row + (if pawn.color = Color.white then -1 else 1)) col = none ∧
        b.get (row + 2 * (if pawn.color = Color.white then -1 else 1)) col = none) ∨
      (∃ offset : Int, (offset = -1 ∨ offset = 1) ∧
        m = ⟨row + (if pawn.color = Color.white then -1 else 1), col + offset⟩ ∧
        onBoard (row + (if pawn.color = Color.white then -1 else 1)) (col + offset) ∧
        ∃ target, b.get (row + (if pawn.color = Color.white then -1 else 1)) (col + offset)
          = some target ∧ target.color ≠ pawn.color)) ∧
    (∀ offset : Int, (offset = -1 ∨ offset = 1) →
      b.get (row + (if pawn.color = Color.white then -1 else 1)) (col + offset) = none →
      (⟨row + (if pawn.color = Color.white then -1 else 1), col + offset⟩ : Square) ∉
        getPawnMoves row col pawn b) := by
  refine ⟨fun m => mem_getPawnMoves b pawn row col m hrc, ?_⟩
  intro offset hoff hempty hmem
  rcases (mem_getPawnMoves b pawn row col _ hrc).mp hmem with
    ⟨he, -, -⟩ | ⟨he, -, -, -⟩ | ⟨offset1, hoff1, he, -, target, ht, -⟩
  · simp only [Square.mk.injEq] at he
    omega
  · simp only [Square.mk.injEq] at he
    omega
  · simp only [Square.mk.injEq] at he
    have : offset1 = offset := by omega
    subst this
    rw [hempty] at ht
    cases ht

theorem pawn_moves_exactly_witness :
    (∀ m : Square, m ∈ getPawnMoves 4 4 ⟨Kind.pawn, Color.white, some true⟩ centreBoard ↔
      (m = ⟨4 + (if Color.white = Color.white then -1 else 1), 4⟩ ∧
        onBoard (4 + (if Color.white = Color.white then -1 else 1)) 4 ∧
        centreBoard.get (4 + (if Color.white = Color.white then -1 else 1)) 4 = none) ∨
      (m = ⟨4 + 2 * (if Color.white = Color.white then -1 else 1), 4⟩ ∧
        (4 : Int) = (if Color.white = Color.white then 6 else 1) ∧
        centreBoard.get (4 + (if Color.white = Color.white then -1 else 1)) 4 = none ∧
        centreBoard.get (4 + 2 * (if Color.white = Color.white then -1 else 1)) 4 = none) ∨
      (∃ offset : Int, (offset = -1 ∨ offset = 1) ∧
        m = ⟨4 + (if Color.white = Color.white then -1 else 1), 4 + offset⟩ ∧
        onBoard (4 + (if Color.white = Color.white then -1 else 1)) (4 + offset) ∧
        ∃ target, centreBoard.get (4 + (if Color.white = Color.white then -1 else 1))
          (4 + offset) = some target ∧ target.color ≠ Color.white)) ∧
    (∀ offset : Int, (offset = -1 ∨ offset = 1) →
      centreBoard.get (4 + (if Color.white = Color.white then -1 else 1)) (4 + offset) = none →
      (⟨4 + (if Color.white = Color.white then -1 else 1), 4 + offset⟩ : Square) ∉
        getPawnMoves 4 4 ⟨Kind.pawn, Color.white, some true⟩ centreBoard) :=
  pawn_moves_exactly centreBoard ⟨Kind.pawn, Color.white, some true⟩ 4 4 (by decide)

/-- C19: an applied legal move from `A` to `B` changes the board at `A` and `B`
only: `A` becomes empty, `B` holds the moved piece with `moved = true` (or the
queen of the same colour when promoted), every other square keeps what it held;
the selection is cleared and exactly one record
`{from: A, to: B, piece: kind moved, captured: kind captured or none}` is
appended to `moveHistory`. -/
theorem applied_move_frame (s s1 : GameState) (sel : Square) (piece : Piece)
    (row col : Int)
    (hmate : s.isCheckmate = false)
    (hsel : s.selectedSquare = some sel)
    (hpiece : s.board.get sel.row sel.col = some piece)
    (hvalid : getValidMovesForPiece sel.row sel.col s.board true = some s.validMoves)
    (hto : (⟨row, col⟩ : Square) ∈ s.validMoves)
    (hclick : handleSquareClick s row col = some s1) :
    (row ≠ sel.row ∨ col ≠ sel.col) ∧
      s1.board.get sel.row sel.col = none ∧
      s1.board.get row col =
        some (if piece.type = Kind.pawn ∧ (row = 0 ∨ row = 7) then
          ⟨Kind.queen, piece.color, some true⟩ else { piece with moved := some true }) ∧
      (∀ r c : Int, (r ≠ row ∨ c ≠ col) → (r ≠ sel.row ∨ c ≠ sel.col) →
        s1.board.get r c = s.board.get r c) ∧
      s1.selectedSquare = none ∧ s1.validMoves = [] ∧
      s1.moveHistory = s.moveHistory ++
        [⟨sel, ⟨row, col⟩, piece.type, (s.board.get row col).map (·.type)⟩] := by
  obtain ⟨piece1, inCheck, mate, hp1, -, hs1⟩ := handleSquareClick_move hmate hsel hto hclick
  rw [hpiece] at hp1
  cases hp1
  have hgen := ((mem_legal hpiece hvalid).mp hto).1
  have hselb : onBoard sel.row sel.col := onBoard_of_get_some hpiece
  obtain ⟨hm, hne, -⟩ := pieceMoves_sound s.board piece sel.row sel.col ⟨row, col⟩ hselb hgen
  simp only at hm hne
  subst hs1
  exact ⟨hne, movedBoard_get_src s.board sel row col piece hne,
    movedBoard_get_dest s.board sel row col piece hm hne,
    fun r c h1 h2 => movedBoard_get_other s.board sel row col piece r c h1 h2,
    rfl, rfl, rfl⟩

set_option maxRecDepth 1000000 in
theorem applied_move_frame_witness :
    ((3 : Int) ≠ (⟨4, 4⟩ : Square).row ∨ (3 : Int) ≠ (⟨4, 4⟩ : Square).col) ∧
      afterCapture.board.get (⟨4, 4⟩ : Square).row (⟨4, 4⟩ : Square).col = none ∧
      afterCapture.board.get 3 3 =
        some (if (⟨Kind.pawn, Color.white, some true⟩ : Piece).type = Kind.pawn ∧
            ((3 : Int) = 0 ∨ (3 : Int) = 7) then
          ⟨Kind.queen, Color.white, some true⟩ else ⟨Kind.pawn, Color.white, some true⟩) ∧
      (∀ r c : Int, (r ≠ 3 ∨ c ≠ 3) →
        (r ≠ (⟨4, 4⟩ : Square).row ∨ c ≠ (⟨4, 4⟩ : Square).col) →
        afterCapture.board.get r c = captureReady.board.get r c) ∧
      afterCapture.selectedSquare = none ∧ afterCapture.validMoves = [] ∧
      afterCapture.moveHistory = captureReady.moveHistory ++
        [⟨⟨4, 4⟩, ⟨3, 3⟩, Kind.pawn, (captureReady.board.get 3 3).map (·.type)⟩] :=
  applied_move_frame captureReady afterCapture ⟨4, 4⟩ ⟨Kind.pawn, Color.white, some true⟩
    3 3 rfl rfl (by decide) (by decide) (by decide) (by rfl)

theorem findKing_eq_none_iff (b : Board) (color : Color) :
    findKing b color = none ↔
      ∀ r c p, b.get r c = some p → ¬ (p.type = Kind.king ∧ p.color = color) := by
  unfold findKing
  rw [List.find?_eq_none]
  constructor
  · intro h r c p hp hk
    have := h ⟨r, c⟩ ((mem_allSquares _).mpr (onBoard_of_get_some hp))
    simp [hp, hk.1, hk.2] at this
  · intro h sq _
    rcases Option.eq_none_or_eq_some (b.get sq.row sq.col) with hg | ⟨p, hg⟩
    · simp [hg]
    · have := h sq.row sq.col p hg
      simpa [hg] using this

/-- A board without a king of `color` has none after a relocation either. -/
theorem findKing_simulateMove_none {b : Board} {color : Color} (row col : Int) (m : Square)
    (hk : findKing b color = none) :
    findKing (simulateMove b row col m) color = none := by
  rw [findKing_eq_none_iff] at hk ⊢
  intro r c p hp
  by_cases h2 : r = row ∧ c = col
  · obtain ⟨rfl, rfl⟩ := h2
    rw [simulateMove_get_src] at hp
    cases hp
  · have h2 := ne_of_not_both h2
    by_cases h1 : r = m.row ∧ c = m.col
    · obtain ⟨rfl, rfl⟩ := h1
      have hmb : onBoard m.row m.col := onBoard_of_get_some hp
      rw [simulateMove_get_dest b row col m hmb h2] at hp
      exact hk row col p hp
    · have h1 := ne_of_not_both h1
      rw [simulateMove_get_other b row col m r c h1 h2] at hp
      exact hk r c p hp

theorem filterLegal_eq_none_iff (b : Board) (row col : Int) (p : Piece) :
    ∀ l : List Square, filterLegal b row col p l = none ↔
      ∃ m ∈ l, keepsKingSafe b row col p m = none := by
  intro l
  induction l with
  | nil => simp [filterLegal]
  | cons a t ih =>
    unfold filterLegal
    rcases Option.eq_none_or_eq_some (keepsKingSafe b row col p a) with ha | ⟨keep, ha⟩
    · simp only [ha, true_iff]
      exact ⟨a, List.mem_cons_self a t, ha⟩
    · simp only [ha]
      rcases Option.eq_none_or_eq_some (filterLegal b row col p t) with ht | ⟨kept, ht⟩
      · simp only [ht, true_iff]
        obtain ⟨m, hm, hmn⟩ := ih.mp ht
        exact ⟨m, List.mem_cons_of_mem a hm, hmn⟩
      · simp only [ht, false_iff, reduceCtorEq]
        rintro ⟨m, hm, hmn⟩
        rcases List.mem_cons.mp hm with rfl | hmt
        · rw [ha] at hmn; cases hmn
        · have := ih.mpr ⟨m, hmt, hmn⟩
          rw [ht] at this
          cases this

/-- C20: for a piece of colour `k` on an on-board square,
`getValidMovesForPiece(row, col, board, true)` faults (a `null` king position is
dereferenced) exactly when the board has no king of colour `k` and the piece has
at least one pseudo-legal destination; with a king of colour `k` on the board the
call returns, because relocating the piece along any generated move leaves a king
of colour `k` on the simulated board. -/
theorem missing_king_fault_iff (b : Board) (row col : Int) (piece : Piece)
    (hpiece : b.get row col = some piece) :
    (getValidMovesForPiece row col b true = none ↔
      findKing b piece.color = none ∧
        ∃ pseudo, getValidMovesForPiece row col b false = some pseudo ∧ pseudo ≠ []) ∧
    (∀ k0, findKing b piece.color = some k0 →
      (∃ moves, getValidMovesForPiece row col b true = some moves) ∧
      ∀ m ∈ pieceMoves row col piece b,
        ∃ k, findKing (simulateMove b row col m) piece.color = some k) := by
  constructor
  · rw [getValidMovesForPiece_true_of_piece hpiece, getValidMovesForPiece_false,
      pseudoLegalMoves_of_piece hpiece, filterLegal_eq_none_iff]
    constructor
    · rintro ⟨m, hm, hnone⟩
      constructor
      · rcases Option.eq_none_or_eq_some (findKing b piece.color) with hk | ⟨k0, hk⟩
        · exact hk
        · obtain ⟨v, hv⟩ := keepsKingSafe_total hpiece hk hm
          rw [hv] at hnone
          cases hnone
      · refine ⟨_, rfl, ?_⟩
        intro he
        rw [he] at hm
        cases hm
    · rintro ⟨hk, pseudo, hps, hne⟩
      simp only [Option.some.injEq] at hps
      subst hps
      obtain ⟨m, hm⟩ := List.exists_mem_of_ne_nil _ hne
      refine ⟨m, hm, ?_⟩
      unfold keepsKingSafe
      simp only [findKing_simulateMove_none row col m hk]
  · intro k0 hk
    exact ⟨getValidMovesForPiece_total hpiece hk,
      fun m hm => findKing_simulateMove hpiece hk hm⟩

theorem missing_king_fault_iff_witness :
    (getValidMovesForPiece 6 0 lonePawnBoard true = none ↔
      findKing lonePawnBoard Color.white = none ∧
        ∃ pseudo, getValidMovesForPiece 6 0 lonePawnBoard false = some pseudo ∧
          pseudo ≠ []) ∧
    (∀ k0, findKing lonePawnBoard Color.white = some k0 →
      (∃ moves, getValidMovesForPiece 6 0 lonePawnBoard true = some moves) ∧
      ∀ m ∈ pieceMoves 6 0 ⟨Kind.pawn, Color.white, some false⟩ lonePawnBoard,
        ∃ k, findKing (simulateMove lonePawnBoard 6 0 m) Color.white = some k) :=
  missing_king_fault_iff lonePawnBoard 6 0 ⟨Kind.pawn, Color.white, some false⟩ (by decide)

/-! ## Exactly one king of each colour -/

set_option maxRecDepth 1000000 in
theorem allSquares_nodup : allSquares.Nodup := by decide

theorem countP_eq_one_iff {α : Type} (f : α → Bool) :
    ∀ l : List α, l.Nodup →
      (l.countP f = 1 ↔ ∃ x ∈ l, f x = true ∧ ∀ y ∈ l, f y = true → y = x) := by
  intro l
  induction l with
  | nil => intro _; simp
  | cons a t ih =>
    intro hnd
    obtain ⟨hat, hndt⟩ := List.nodup_cons.mp hnd
    rw [List.countP_cons]
    by_cases hfa : f a = true
    · simp only [hfa, if_true, Nat.add_left_eq_self, List.countP_eq_zero]
      constructor
      · intro hnone
        refine ⟨a, List.mem_cons_self a t, hfa, ?_⟩
        intro y hy hfy
        rcases List.mem_cons.mp hy with rfl | hyt
        · rfl
        · exact absurd hfy (hnone y hyt)
      · rintro ⟨x, -, -, huniq⟩ y hyt hfy
        have h1 := huniq y (List.mem_cons_of_mem a hyt) hfy
        have h2 := huniq a (List.mem_cons_self a t) hfa
        rw [h1, ← h2] at hyt
        exact hat hyt
    · simp only [hfa, if_false, Nat.add_zero, Bool.false_eq_true]
      rw [ih hndt]
      constructor
      · rintro ⟨x, hx, hfx, huniq⟩
        refine ⟨x, List.mem_cons_of_mem a hx, hfx, ?_⟩
        intro y hy hfy
        rcases List.mem_cons.mp hy with rfl | hyt
        · exact absurd hfy hfa
        · exact huniq y hyt hfy
      · rintro ⟨x, hx, hfx, huniq⟩
        rcases List.mem_cons.mp hx with rfl | hxt
        · exact absurd hfx hfa
        · exact ⟨x, hxt, hfx, fun y hy hfy => huniq y (List.mem_cons_of_mem a hy) hfy⟩

/-- One king of `color`: some square holds one, and every square that holds
one is that square. -/
theorem kingCount_eq_one_iff (b : Board) (color : Color) :
    kingCount b color = 1 ↔
      ∃ k : Square,
        (∃ p, b.get k.row k.col = some p ∧ p.type = Kind.king ∧ p.color = color) ∧
        ∀ r c p, b.get r c = some p → p.type = Kind.king → p.color = color →
          r = k.row ∧ c = k.col := by
  unfold kingCount
  rw [countP_eq_one_iff _ allSquares allSquares_nodup]
  constructor
  · rintro ⟨k, -, hk, huniq⟩
    refine ⟨k, ?_, ?_⟩
    · rcases Option.eq_none_or_eq_some (b.get k.row k.col) with hg | ⟨p, hg⟩
      · simp [hg] at hk
      · simp only [hg, Bool.and_eq_true, decide_eq_true_eq] at hk
        exact ⟨p, hg, hk.1, hk.2⟩
    · intro r c p hp ht hc
      have := huniq ⟨r, c⟩ ((mem_allSquares _).mpr (onBoard_of_get_some hp))
        (by simp [hp, ht, hc])
      rw [← this]
      exact ⟨rfl, rfl⟩
  · rintro ⟨k, ⟨p, hp, ht, hc⟩, huniq⟩
    refine ⟨k, (mem_allSquares _).mpr (onBoard_of_get_some hp), by simp [hp, ht, hc], ?_⟩
    intro y _ hy
    rcases Option.eq_none_or_eq_some (b.get y.row y.col) with hg | ⟨q, hg⟩
    · simp [hg] at hy
    · simp only [hg, Bool.and_eq_true, decide_eq_true_eq] at hy
      obtain ⟨e1, e2⟩ := huniq y.row y.col q hg hy.1 hy.2
      cases y with
      | mk yr yc =>
        cases k with
        | mk kr kc =>
          simp only at e1 e2
          rw [e1, e2]

theorem run_snoc :
    ∀ (es : List Event) (s s2 s1 : GameState) (e : Event),
      run s es = some s2 → step s2 e = some s1 → run s (es ++ [e]) = some s1 := by
  intro es
  induction es with
  | nil =>
    intro s s2 s1 e h hstep
    simp only [run, Option.some.injEq] at h
    subst h
    simp only [List.nil_append, run, hstep]
  | cons a t ih =>
    intro s s2 s1 e h hstep
    simp only [List.cons_append]
    unfold run at h ⊢
    rcases Option.eq_none_or_eq_some (step s a) with ha | ⟨s3, ha⟩
    · simp [ha] at h
    · simp only [ha] at h ⊢
      exact ih s3 s2 s1 e h hstep

theorem reachable_step {s s1 : GameState} {e : Event} (hreach : Reachable s)
    (hstep : step s e = some s1) : Reachable s1 := by
  obtain ⟨es, hes⟩ := hreach
  exact ⟨es ++ [e], run_snoc es initialState s s1 e hes hstep⟩

/-- A generated move of a piece of colour `k` onto a square makes that square
attacked by `k`. -/
theorem attacked_of_generated_move {b : Board} {r c row col : Int} {p : Piece}
    (hp : b.get r c = some p) (hgen : (⟨row, col⟩ : Square) ∈ pieceMoves r c p b) :
    isSquareUnderAttack row col p.color b = true := by
  unfold isSquareUnderAttack
  rw [List.any_eq_true]
  refine ⟨⟨r, c⟩, (mem_allSquares _).mpr (onBoard_of_get_some hp), ?_⟩
  simp only [hp, decide_True, Bool.true_and, pseudoLegalMoves]
  exact (isValidMove_iff _ row col).mpr hgen

/-- A generated move never lands on a king, when each colour has one king and
the king of the other colour is not attacked by the mover's colour. -/
theorem generated_move_spares_kings {b : Board} {sel : Square} {row col : Int}
    {piece : Piece}
    (hone : ∀ color, kingCount b color = 1)
    (hsafe : ∀ k, findKing b (opposite piece.color) = some k →
      isSquareUnderAttack k.row k.col piece.color b = false)
    (hp : b.get sel.row sel.col = some piece)
    (hgen : (⟨row, col⟩ : Square) ∈ pieceMoves sel.row sel.col piece b) :
    ∀ t, b.get row col = some t → t.type ≠ Kind.king := by
  intro t ht hking
  obtain ⟨-, -, henemy⟩ :=
    pieceMoves_sound b piece sel.row sel.col ⟨row, col⟩ (onBoard_of_get_some hp) hgen
  have hcol : t.color = opposite piece.color := (ne_opposite_iff _ _).mp (henemy t ht)
  obtain ⟨k1, hk1⟩ := findKing_isSome_of_king ht hking hcol
  obtain ⟨-, q, hq, hqt, hqc⟩ := findKing_some hk1
  obtain ⟨k, -, huniq⟩ := (kingCount_eq_one_iff b (opposite piece.color)).mp
    (hone (opposite piece.color))
  obtain ⟨e1, e2⟩ := huniq row col t ht hking hcol
  obtain ⟨e3, e4⟩ := huniq k1.row k1.col q hq hqt hqc
  have hatt := attacked_of_generated_move hp hgen
  have hnot := hsafe k1 hk1
  rw [e3, e4, ← e1, ← e2, hatt] at hnot
  cases hnot

/-- The board that `handleSquareClick` builds for a generated move that spares
the kings has one king of each colour again. -/
theorem kingCount_movedBoard {b : Board} {sel : Square} {row col : Int} {piece : Piece}
    (hone : ∀ color, kingCount b color = 1)
    (hsafe : ∀ k, findKing b (opposite piece.color) = some k →
      isSquareUnderAttack k.row k.col piece.color b = false)
    (hp : b.get sel.row sel.col = some piece)
    (hgen : (⟨row, col⟩ : Square) ∈ pieceMoves sel.row sel.col piece b) :
    ∀ color, kingCount (movedBoard b sel row col piece) color = 1 := by
  intro color
  have hspare := generated_move_spares_kings hone hsafe hp hgen
  obtain ⟨hm, hne, -⟩ :=
    pieceMoves_sound b piece sel.row sel.col ⟨row, col⟩ (onBoard_of_get_some hp) hgen
  simp only at hm hne
  obtain ⟨l1, l2⟩ := landed_color_type piece row
  have hdest := movedBoard_get_dest b sel row col piece hm hne
  have hsrc := movedBoard_get_src b sel row col piece hne
  obtain ⟨k, ⟨q, hq, hqt, hqc⟩, huniq⟩ := (kingCount_eq_one_iff b color).mp (hone color)
  rw [kingCount_eq_one_iff]
  by_cases hks : k.row = sel.row ∧ k.col = sel.col
  · rw [hks.1, hks.2, hp] at hq
    cases hq
    refine ⟨⟨row, col⟩, ⟨_, hdest, l2.mpr hqt, l1.trans hqc⟩, ?_⟩
    intro r c p1 hp1 ht1 hc1
    by_cases h1 : r = row ∧ c = col
    · exact h1
    · have h1 := ne_of_not_both h1
      by_cases h2 : r = sel.row ∧ c = sel.col
      · rw [h2.1, h2.2, hsrc] at hp1
        cases hp1
      · have h2n := ne_of_not_both h2
        rw [movedBoard_get_other b sel row col piece r c h1 h2n] at hp1
        obtain ⟨e1, e2⟩ := huniq r c p1 hp1 ht1 hc1
        exact absurd ⟨e1.trans hks.1, e2.trans hks.2⟩ h2
  · have hks1 := ne_of_not_both hks
    have hkd : k.row ≠ row ∨ k.col ≠ col := by
      apply ne_of_not_both
      rintro ⟨e1, e2⟩
      rw [e1, e2] at hq
      exact hspare q hq hqt
    have hkeep := movedBoard_get_other b sel row col piece k.row k.col hkd hks1
    refine ⟨k, ⟨q, hkeep.trans hq, hqt, hqc⟩, ?_⟩
    intro r c p1 hp1 ht1 hc1
    by_cases h1 : r = row ∧ c = col
    · rw [h1.1, h1.2, hdest] at hp1
      cases hp1
      obtain ⟨e1, e2⟩ := huniq sel.row sel.col piece hp (l2.mp ht1) (l1.symm.trans hc1)
      exact absurd ⟨e1.symm, e2.symm⟩ hks
    · have h1 := ne_of_not_both h1
      by_cases h2 : r = sel.row ∧ c = sel.col
      · rw [h2.1, h2.2, hsrc] at hp1
        cases hp1
      · have h2n := ne_of_not_both h2
        rw [movedBoard_get_other b sel row col piece r c h1 h2n] at hp1
        exact huniq r c p1 hp1 ht1 hc1

set_option maxRecDepth 1000000 in
theorem kings_initial :
    (∀ color, kingCount initializeBoard color = 1) ∧
      ∀ k, findKing initializeBoard (opposite Color.white) = some k →
        isSquareUnderAttack k.row k.col Color.white initializeBoard = false := by
  refine ⟨fun color => by cases color <;> decide, ?_⟩
  intro k hk
  have hf : findKing initializeBoard (opposite Color.white) = some ⟨0, 4⟩ := by decide
  rw [hf] at hk
  cases hk
  decide

/-- In a reachable state each colour has one king, and the king of the side
that has just moved is not attacked by the side to move. -/
theorem kings_invariant (s : GameState) (hreach : Reachable s) :
    (∀ color, kingCount s.board color = 1) ∧
      ∀ k, findKing s.board (opposite s.currentPlayer) = some k →
        isSquareUnderAttack k.row k.col s.currentPlayer s.board = false := by
  have key := reachable_induction
    (fun s => Reachable s ∧ (∀ color, kingCount s.board color = 1) ∧
      ∀ k, findKing s.board (opposite s.currentPlayer) = some k →
        isSquareUnderAttack k.row k.col s.currentPlayer s.board = false)
    ⟨⟨[], rfl⟩, kings_initial⟩ ?_ s hreach
  · exact key.2
  · rintro s e s1 ⟨hr, hone, hsafe⟩ hstep
    refine ⟨reachable_step hr hstep, ?_⟩
    cases e with
    | reset =>
      simp only [step, resetGame, Option.some.injEq] at hstep
      subst hstep
      exact kings_initial
    | click row col =>
      simp only [step] at hstep
      rcases handleSquareClick_cases hstep with ⟨-, rfl⟩ |
        ⟨sel, piece, inCheck, mate, -, hsel, hto, hp, -, rfl⟩ | ⟨sel, -, -, -, rfl⟩ |
        ⟨piece, moves, -, -, -, -, -, rfl⟩ | ⟨-, -, -, rfl⟩
      · exact ⟨hone, hsafe⟩
      · have hvalid := (validMoves_fresh s hr).1 sel hsel
        obtain ⟨q, hq, hqc⟩ := selected_piece_of_current_player s hr sel hsel
        rw [hp] at hq
        cases hq
        have hgen := ((mem_legal hp hvalid).mp hto).1
        have hsafe1 : ∀ k, findKing s.board (opposite piece.color) = some k →
            isSquareUnderAttack k.row k.col piece.color s.board = false := by
          rw [hqc]
          exact hsafe
        refine ⟨kingCount_movedBoard hone hsafe1 hp hgen, ?_⟩
        intro k hk
        simp only [opposite_opposite] at hk
        obtain ⟨k0, hk0, hnot⟩ := movedBoard_king_safe hp hvalid hto
        rw [hqc] at hk0 hnot
        rw [hk] at hk0
        cases hk0
        exact hnot
      · exact ⟨hone, hsafe⟩
      · exact ⟨hone, hsafe⟩
      · exact ⟨hone, hsafe⟩

theorem findKing_of_kingCount {b : Board} {color : Color} (h : kingCount b color = 1) :
    ∃ k, findKing b color = some k := by
  obtain ⟨k, ⟨q, hq, hqt, hqc⟩, -⟩ := (kingCount_eq_one_iff b color).mp h
  exact findKing_isSome_of_king hq hqt hqc

/-- From a reachable state no click and no reset faults. -/
theorem step_total (s : GameState) (hreach : Reachable s) (e : Event) :
    ∃ s1, step s e = some s1 := by
  obtain ⟨hone, hsafe⟩ := kings_invariant s hreach
  cases e with
  | reset => exact ⟨_, rfl⟩
  | click row col =>
    simp only [step]
    rcases Bool.eq_false_or_eq_true s.isCheckmate with hm | hm
    · exact ⟨s, handleSquareClick_mate s _ _ hm⟩
    · rcases Option.eq_none_or_eq_some s.selectedSquare with hsel | ⟨sel, hsel⟩
      · rcases Option.eq_none_or_eq_some (s.board.get row.val col.val) with hg | ⟨piece, hg⟩
        · exact ⟨s, handleSquareClick_idle_other hm hsel
            (fun p hp => by rw [hg] at hp; cases hp)⟩
        · by_cases hc : piece.color = s.currentPlayer
          · obtain ⟨k0, hk0⟩ := findKing_of_kingCount (hone piece.color)
            obtain ⟨moves, hmoves⟩ := getValidMovesForPiece_total hg hk0
            rw [handleSquareClick_idle_own hm hsel hg hc, hmoves]
            exact ⟨_, rfl⟩
          · exact ⟨s, handleSquareClick_idle_other hm hsel
              (fun p hp => by rw [hg] at hp; cases hp; exact hc)⟩
      · by_cases hto : (⟨(row.val : Int), (col.val : Int)⟩ : Square) ∈ s.validMoves
        · have hvalid := (validMoves_fresh s hreach).1 sel hsel
          obtain ⟨piece, hp, hpc⟩ := selected_piece_of_current_player s hreach sel hsel
          have hgen := ((mem_legal hp hvalid).mp hto).1
          have hsafe1 : ∀ k, findKing s.board (opposite piece.color) = some k →
              isSquareUnderAttack k.row k.col piece.color s.board = false := by
            rw [hpc]
            exact hsafe
          obtain ⟨k1, hk1⟩ := findKing_of_kingCount
            (kingCount_movedBoard hone hsafe1 hp hgen (opposite s.currentPlayer))
          exact handleSquareClick_move_total hm hsel hto hp hk1
        · exact ⟨_, handleSquareClick_deselect hm hsel hto⟩

/-! ## Claim C21 -/

/-- C21: in every state reachable from the initial state by clicks (and
resets) the board holds exactly one white king and exactly one black king; the
king of the side that has just moved is not attacked by the side to move, which
is why no move captures a king.  Hence no king lookup finds `null` during play:
both king searches succeed, `getValidMovesForPiece(r, c, board, true)` returns for
every piece on the board, and every click is handled without a fault. -/
theorem exactly_one_king_of_each_colour (s : GameState) (hreach : Reachable s) :
    kingCount s.board Color.white = 1 ∧ kingCount s.board Color.black = 1 ∧
      (∀ k, findKing s.board (opposite s.currentPlayer) = some k →
        isSquareUnderAttack k.row k.col s.currentPlayer s.board = false) ∧
      (∃ kw kb, findKing s.board Color.white = some kw ∧
        findKing s.board Color.black = some kb) ∧
      (∀ r c piece, s.board.get r c = some piece →
        ∃ moves, getValidMovesForPiece r c s.board true = some moves) ∧
      (∀ row col : Fin 8, ∃ s1, handleSquareClick s (row.val : Int) (col.val : Int) = some s1 ∧
        kingCount s1.board Color.white = 1 ∧ kingCount s1.board Color.black = 1) := by
  obtain ⟨hone, hsafe⟩ := kings_invariant s hreach
  obtain ⟨kw, hkw⟩ := findKing_of_kingCount (hone Color.white)
  obtain ⟨kb, hkb⟩ := findKing_of_kingCount (hone Color.black)
  refine ⟨hone Color.white, hone Color.black, hsafe, ⟨kw, kb, hkw, hkb⟩, ?_, ?_⟩
  · intro r c piece hp
    obtain ⟨k0, hk0⟩ := findKing_of_kingCount (hone piece.color)
    exact getValidMovesForPiece_total hp hk0
  · intro row col
    obtain ⟨s1, hs1⟩ := step_total s hreach (Event.click row col)
    have hone1 := (kings_invariant s1 (reachable_step hreach hs1)).1
    exact ⟨s1, hs1, hone1 Color.white, hone1 Color.black⟩

set_option maxRecDepth 1000000 in
theorem exactly_one_king_of_each_colour_witness :
    kingCount captureReady.board Color.white = 1 ∧ kingCount captureReady.board Color.black = 1 ∧
      (∀ k, findKing captureReady.board (opposite captureReady.currentPlayer) = some k →
        isSquareUnderAttack k.row k.col captureReady.currentPlayer captureReady.board = false) ∧
      (∃ kw kb, findKing captureReady.board Color.white = some kw ∧
        findKing captureReady.board Color.black = some kb) ∧
      (∀ r c piece, captureReady.board.get r c = some piece →
        ∃ moves, getValidMovesForPiece r c captureReady.board true = some moves) ∧
      (∀ row col : Fin 8,
        ∃ s1, handleSquareClick captureReady (row.val : Int) (col.val : Int) = some s1 ∧
          kingCount s1.board Color.white = 1 ∧ kingCount s1.board Color.black = 1) :=
  exactly_one_king_of_each_colour captureReady
    ⟨[Event.click 6 4, Event.click 4 4, Event.click 1 3, Event.click 3 3, Event.click 4 4],
      by rfl⟩

end Chess
